import Mathlib

/-!
Verification development for the Memory-Management-Simulator repository
(`src/allocator.cpp`, `src/cache.cpp`, `src/mainn.cpp`, `include/allocator.hpp`).

Modelling conventions (shallow embedding):
* `size_t` / `uintptr_t` / `uint64_t` values are `Nat`; where the C++ code can
  wrap (caller-controlled offsets and sizes, the logical clock), the wrap is
  made explicit with `% U64`.  Quantities that the program keeps inside the
  64 KiB heap never reach `2 ^ 64`, so plain `Nat` arithmetic is exact there.
* `int` values (block ids, `g_next_id`) are `Int`.
* Pointers into the heap are byte offsets from the start of `g_heap`
  (`BlockHeader.start`, cache addresses).
* The intrusive block list linked through `BlockHeader::next` is a Lean
  `List BlockHeader`; each element records its header offset `addr` inside the
  heap, so physical-contiguity checks (`curr_end == next`) are expressible.
* The heap's payload bytes live in a total function `mem : Nat → Nat`
  (offset ↦ byte value); the header fields are kept structurally in the list.
* Layout constants follow the x86-64 ABI the sources target:
  `sizeof(BlockHeader) = 56`, `alignof(std::max_align_t) = 16`, and
  `HEAP_SIZE = 64 * 1024` as defined in `mainn.cpp`.
-/

def U64 : Nat := 2 ^ 64

/-- `HEAP_SIZE` from `mainn.cpp`: `std::size_t HEAP_SIZE = 64 * 1024;`. -/
def HEAP_SIZE : Nat := 64 * 1024

/-- `sizeof(BlockHeader)` on x86-64: int(4)+pad(4)+ptr(8)+3*size_t/flags
packed into 56 bytes. -/
def HEADER_SIZE : Nat := 56

/-- `alignof(std::max_align_t)` on x86-64. -/
def MAX_ALIGN : Nat := 16

/-- Byte pattern marking uninitialized memory (`PATTERN_UNINITIALIZED`). -/
def PATTERN_UNINITIALIZED : Nat := 0xCD

/-- Byte pattern marking freed memory (`PATTERN_FREED`). -/
def PATTERN_FREED : Nat := 0xDD

/-! ### Cache data model (`cache.cpp`) -/

/-- `struct CacheLine` from `cache.cpp`. -/
structure CacheLine where
  valid : Bool
  tag : Nat
  freq : Nat
  last_used : Nat
deriving DecidableEq, Repr

/-- The default-constructed (invalid) cache line. -/
def defaultCacheLine : CacheLine := ⟨false, 0, 0, 0⟩

instance : Inhabited CacheLine := ⟨defaultCacheLine⟩

/-- `struct CacheLevelStats` from `cache.cpp`. -/
structure CacheLevelStats where
  accesses : Nat
  hits : Nat
  misses : Nat
  miss_penalty_accum : Nat
deriving DecidableEq, Repr

/-- `class CacheLevel` from `cache.cpp`: geometry, the 2-D line array
`m_sets` (num_sets × associativity) and the per-level statistics. -/
structure CacheLevel where
  m_size_bytes : Nat
  m_block_size : Nat
  m_associativity : Nat
  m_latency : Nat
  m_num_sets : Nat
  m_level_index : Nat
  m_sets : List (List CacheLine)
  m_stats : CacheLevelStats
deriving DecidableEq, Repr

instance : Inhabited CacheLevel :=
  ⟨{ m_size_bytes := 0, m_block_size := 1, m_associativity := 1, m_latency := 1,
     m_num_sets := 1, m_level_index := 0, m_sets := [],
     m_stats := ⟨0, 0, 0, 0⟩ }⟩

/-- The `CacheLevel` constructor, including its normalization of degenerate
configurations (zero block size / associativity / latency, clamping the
associativity, fully-associative fallback). -/
def mkCacheLevel (size_bytes block_size associativity access_latency_cycles level_index : Nat) :
    CacheLevel :=
  let bs := if block_size = 0 then 1 else block_size
  let assoc0 := if associativity = 0 then 1 else associativity
  let lat := if access_latency_cycles = 0 then 1 else access_latency_cycles
  let num_lines0 := size_bytes / bs
  let num_lines := if num_lines0 = 0 then 1 else num_lines0
  let assoc1 := if assoc0 > num_lines then num_lines else assoc0
  let num_sets0 := num_lines / assoc1
  let num_sets := if num_sets0 = 0 then 1 else num_sets0
  let assoc := if num_sets0 = 0 then num_lines else assoc1
  { m_size_bytes := size_bytes
    m_block_size := bs
    m_associativity := assoc
    m_latency := lat
    m_num_sets := num_sets
    m_level_index := level_index
    m_sets := List.replicate num_sets (List.replicate assoc defaultCacheLine)
    m_stats := ⟨0, 0, 0, 0⟩ }

/-- `CacheLevel::compute_index_tag`: returns `(set_idx, tag)`. -/
def compute_index_tag (block_size num_sets addr : Nat) : Nat × Nat :=
  let block_addr := addr / block_size
  (block_addr % num_sets, block_addr / num_sets)

/-- The scan inside `CacheLevel::access`: walk the ways of one set, and on the
first valid line with a matching tag bump its LFU counter, refresh its LRU
timestamp and report a hit. -/
def lookupSet (tag timestamp : Nat) : List CacheLine → List CacheLine × Bool
  | [] => ([], false)
  | line :: rest =>
    if line.valid && line.tag == tag then
      ({ line with freq := (line.freq + 1) % U64, last_used := timestamp } :: rest, true)
    else
      let r := lookupSet tag timestamp rest
      (line :: r.1, r.2)

/-- `CacheLevel::access`: lookup an address, updating LFU/LRU data on a hit. -/
def CacheLevel.access (lvl : CacheLevel) (addr timestamp : Nat) : CacheLevel × Bool :=
  let it := compute_index_tag lvl.m_block_size lvl.m_num_sets addr
  let r := lookupSet it.2 timestamp (lvl.m_sets.getD it.1 [])
  ({ lvl with m_sets := lvl.m_sets.set it.1 r.1 }, r.2)

/-- First pass of `CacheLevel::insert`: fill the first invalid way, if any. -/
def fillInvalid (tag timestamp : Nat) : List CacheLine → Option (List CacheLine)
  | [] => none
  | line :: rest =>
    if !line.valid then
      some ({ valid := true, tag := tag, freq := 1, last_used := timestamp } :: rest)
    else
      (fillInvalid tag timestamp rest).map (line :: ·)

/-- Victim scan of `CacheLevel::insert`: LFU with LRU tie-break, scanning
ways `i, i+1, …` against the current victim `vict` (at index `vidx`). -/
def victim_scan (vict : CacheLine) (vidx i : Nat) : List CacheLine → Nat
  | [] => vidx
  | curr :: rest =>
    if curr.freq < vict.freq then victim_scan curr i (i + 1) rest
    else if curr.freq == vict.freq && curr.last_used < vict.last_used then
      victim_scan curr i (i + 1) rest
    else victim_scan vict vidx (i + 1) rest

/-- `CacheLevel::insert`: fill an invalid way if possible, else overwrite the
LFU victim (LRU tie-break). -/
def CacheLevel.insert (lvl : CacheLevel) (addr timestamp : Nat) : CacheLevel :=
  let it := compute_index_tag lvl.m_block_size lvl.m_num_sets addr
  let set := lvl.m_sets.getD it.1 []
  let newLine : CacheLine := { valid := true, tag := it.2, freq := 1, last_used := timestamp }
  let newSet :=
    match fillInvalid it.2 timestamp set with
    | some s => s
    | none =>
      match set with
      | [] => set
      | line0 :: rest => set.set (victim_scan line0 0 1 rest) newLine
  { lvl with m_sets := lvl.m_sets.set it.1 newSet }

/-- `class MultiLevelCache` from `cache.cpp`. -/
structure MultiLevelCache where
  m_levels : List CacheLevel
  m_memory_latency : Nat
  m_timestamp : Nat
  m_total_accesses : Nat
  m_total_hits : Nat
  m_total_misses : Nat
  m_total_penalty : Nat
deriving Repr

/-- The default-constructed `MultiLevelCache` (member initializers). -/
def emptyCache : MultiLevelCache :=
  { m_levels := [], m_memory_latency := 100, m_timestamp := 0,
    m_total_accesses := 0, m_total_hits := 0, m_total_misses := 0, m_total_penalty := 0 }

/-- `MultiLevelCache::reset`. -/
def MultiLevelCache.reset (_m : MultiLevelCache) : MultiLevelCache := emptyCache

/-- `MultiLevelCache::set_memory_latency` (0 is treated as 1). -/
def MultiLevelCache.set_memory_latency (m : MultiLevelCache) (latency_cycles : Nat) :
    MultiLevelCache :=
  { m with m_memory_latency := if latency_cycles = 0 then 1 else latency_cycles }

/-- `MultiLevelCache::add_level`. -/
def MultiLevelCache.add_level (m : MultiLevelCache)
    (size_bytes block_size associativity access_latency_cycles : Nat) : MultiLevelCache :=
  { m with m_levels :=
      m.m_levels ++ [mkCacheLevel size_bytes block_size associativity
        access_latency_cycles m.m_levels.length] }

/-- The per-level walk of `MultiLevelCache::access` (the `for` loop with the
`break` on a hit).  Returns the updated levels, the accumulated penalty, the
index of the hitting level (if any), and the miss records
`(level, penalty_upto_level)`. -/
def walk_levels (addr timestamp : Nat) (penalty0 idx : Nat) :
    List CacheLevel → List CacheLevel × Nat × Option Nat × List (Nat × Nat)
  | [] => ([], penalty0, none, [])
  | lvl :: rest =>
    let penalty := penalty0 + lvl.m_latency
    let lvl1 := { lvl with m_stats := { lvl.m_stats with accesses := lvl.m_stats.accesses + 1 } }
    let ar := CacheLevel.access lvl1 addr timestamp
    if ar.2 then
      let lvl2 := { ar.1 with m_stats := { ar.1.m_stats with hits := ar.1.m_stats.hits + 1 } }
      (lvl2 :: rest, penalty, some idx, [])
    else
      let lvl2 := { ar.1 with m_stats := { ar.1.m_stats with misses := ar.1.m_stats.misses + 1 } }
      let wr := walk_levels addr timestamp penalty (idx + 1) rest
      (lvl2 :: wr.1, wr.2.1, wr.2.2.1, (idx, penalty) :: wr.2.2.2)

/-- The inclusive-fill loop of `MultiLevelCache::access`: insert the address
into every level with index `≤ fill_upto` (the walk starts at index `i`). -/
def fill_levels (addr timestamp fill_upto : Nat) (i : Nat) :
    List CacheLevel → List CacheLevel
  | [] => []
  | lvl :: rest =>
    (if i ≤ fill_upto then lvl.insert addr timestamp else lvl) ::
      fill_levels addr timestamp fill_upto (i + 1) rest

/-- The miss-penalty attribution loop of `MultiLevelCache::access`. -/
def attribute_penalty (total : Nat) (recs : List (Nat × Nat)) (levels : List CacheLevel) :
    List CacheLevel :=
  recs.foldl
    (fun lvls r =>
      if r.1 < lvls.length then
        let lvl := lvls.getD r.1 default
        lvls.set r.1
          { lvl with m_stats :=
              { lvl.m_stats with miss_penalty_accum := lvl.m_stats.miss_penalty_accum + (total - r.2) } }
      else lvls)
    levels

/-- `MultiLevelCache::access`: walk the hierarchy, account the hit/miss, run
the inclusive fill up to the hit level (or all levels on a full miss), and
attribute miss penalties.  `is_write` is accepted but ignored, as in the
source. -/
def MultiLevelCache.access (m : MultiLevelCache) (addr : Nat) (_is_write : Bool) :
    MultiLevelCache :=
  if m.m_levels.isEmpty then m
  else
    let ts := (m.m_timestamp + 1) % U64
    let w := walk_levels addr ts 0 0 m.m_levels
    let n := m.m_levels.length
    let hit_level := match w.2.2.1 with | some k => k | none => n
    let total_penalty := match w.2.2.1 with | some _ => w.2.1 | none => w.2.1 + m.m_memory_latency
    let fill_upto := if hit_level = n then n - 1 else hit_level
    let levels1 := fill_levels addr ts fill_upto 0 w.1
    let levels2 := attribute_penalty total_penalty w.2.2.2 levels1
    { m with
      m_levels := levels2
      m_timestamp := ts
      m_total_accesses := m.m_total_accesses + 1
      m_total_hits := m.m_total_hits + (if w.2.2.1.isSome then 1 else 0)
      m_total_misses := m.m_total_misses + (if w.2.2.1.isSome then 0 else 1)
      m_total_penalty := m.m_total_penalty + total_penalty }

/-- `cache_init_default` from `cache.cpp`: reset, add the default L1 and L2,
set the main-memory latency to 100 cycles. -/
def defaultCache : MultiLevelCache :=
  (((emptyCache.reset).add_level (4 * 1024) 64 4 1).add_level (32 * 1024) 64 8 8).set_memory_latency 100

/-! ### Allocator data model (`allocator.cpp`) -/

/-- `enum class FitStrategy`. -/
inductive FitStrategy where
  | First
  | Best
  | Worst
deriving DecidableEq, Repr

/-- `struct BlockHeader`.  `addr` is the byte offset of the header inside the
heap (the pointer value of the header itself); the `next` pointer is
represented by list order. -/
structure BlockHeader where
  id : Int
  addr : Nat
  start : Nat
  size : Nat
  requested_size : Nat
  free : Bool
  cacheable : Bool
  cache_hits : Nat
deriving DecidableEq, Repr

/-- `align_size`: round up to `alignof(std::max_align_t)`; the addition is
`size_t` arithmetic, so it wraps modulo `2 ^ 64`, and the mask
`~(align - 1)` clears the low four bits. -/
def align_size (size : Nat) : Nat :=
  (((size + MAX_ALIGN - 1) % U64) / MAX_ALIGN) * MAX_ALIGN

/-- Whether `find_fit`'s loop considers a block: not skipped by
`if (!curr->free || curr->size < size) continue;`. -/
def fitQualifies (size : Nat) (b : BlockHeader) : Bool :=
  b.free && decide (size ≤ b.size)

/-- The loop of `find_fit`, with the running `candidate`. -/
def find_fit_go (size : Nat) (strategy : FitStrategy) (candidate : Option BlockHeader) :
    List BlockHeader → Option BlockHeader
  | [] => candidate
  | curr :: rest =>
    if !fitQualifies size curr then find_fit_go size strategy candidate rest
    else if strategy = .First then some curr
    else
      match candidate with
      | none => find_fit_go size strategy (some curr) rest
      | some c =>
        if strategy = .Best then
          if curr.size < c.size then find_fit_go size strategy (some curr) rest
          else find_fit_go size strategy (some c) rest
        else
          if curr.size > c.size then find_fit_go size strategy (some curr) rest
          else find_fit_go size strategy (some c) rest

/-- `find_fit(head, size, strategy)`. -/
def find_fit (blocks : List BlockHeader) (size : Nat) (strategy : FitStrategy) :
    Option BlockHeader :=
  find_fit_go size strategy none blocks

/-- `find_block_by_id`: first non-free block with the given id. -/
def find_block_by_id (blocks : List BlockHeader) (id : Int) : Option BlockHeader :=
  match blocks with
  | [] => none
  | hdr :: rest =>
    if hdr.free = false ∧ hdr.id = id then some hdr else find_block_by_id rest id

/-- `split_block_if_needed`: returns the (possibly shrunk) chosen block and
the new free block to be linked immediately after it, if a split happened.
The caller (`allocator_malloc`) guarantees `size ≤ block.size`. -/
def split_block_if_needed (block : BlockHeader) (size : Nat) : BlockHeader × Option BlockHeader :=
  let remaining := block.size - size
  if remaining ≤ HEADER_SIZE + 8 then (block, none)
  else
    let new_addr := block.addr + HEADER_SIZE + size
    let new_block : BlockHeader :=
      { id := -1
        addr := new_addr
        start := new_addr + HEADER_SIZE
        size := remaining - HEADER_SIZE
        requested_size := 0
        free := true
        cacheable := false
        cache_hits := 0 }
    ({ block with size := size }, some new_block)

/-- The loop of `coalesce_free_blocks`, structurally recursive on a fuel
counter (each iteration shortens the list by one, so `fuel = length` never
runs out; the zero-fuel fallback is unreachable).  A merge re-checks the
merged node against its new successor (the `continue` in the source). -/
def coalesce_go : Nat → List BlockHeader → List BlockHeader
  | _, [] => []
  | _, [b] => [b]
  | 0, b :: c :: rest => b :: c :: rest
  | fuel + 1, b :: c :: rest =>
    if b.free && c.free && decide (b.addr + HEADER_SIZE + b.size = c.addr) then
      coalesce_go fuel
        ({ b with size := b.size + HEADER_SIZE + c.size, requested_size := 0 } :: rest)
    else
      b :: coalesce_go fuel (c :: rest)

/-- `coalesce_free_blocks`: one left-to-right pass merging adjacent free
blocks. -/
def coalesce_free_blocks (l : List BlockHeader) : List BlockHeader :=
  coalesce_go l.length l

/-- `std::memset(mem + start, val, n)` on the heap byte map. -/
def memset (mem : Nat → Nat) (start n val : Nat) : Nat → Nat :=
  fun a => if start ≤ a ∧ a < start + n then val else mem a

/-- Mutation through the pointer returned by `find_block_by_id`: update the
first non-free block with the given id. -/
def update_block_by_id (id : Int) (f : BlockHeader → BlockHeader) :
    List BlockHeader → List BlockHeader
  | [] => []
  | b :: rest =>
    if b.free = false ∧ b.id = id then f b :: rest
    else b :: update_block_by_id id f rest

/-- Mutation through the pointer returned by `find_fit`: replace the first
block at the given header offset by the given blocks (the split splice
`chosen.next = new; new.next = old_next` becomes list splicing). -/
def replaceBlock (addr : Nat) (repl : List BlockHeader) :
    List BlockHeader → List BlockHeader
  | [] => []
  | b :: rest =>
    if b.addr = addr then repl ++ rest
    else b :: replaceBlock addr repl rest

/-- The global allocator + cache state (`g_head`/`g_heap` contents,
`g_next_id`, `g_cache_initialized`, allocation statistics, `g_cache`). -/
structure AllocState where
  blocks : List BlockHeader
  mem : Nat → Nat
  next_id : Int
  cache_initialized : Bool
  cache : MultiLevelCache
  alloc_requests : Nat
  alloc_success : Nat
  alloc_fail : Nat

/-- The single free block created by `allocator_init`. -/
def initBlock : BlockHeader :=
  { id := -1
    addr := 0
    start := HEADER_SIZE
    size := HEAP_SIZE - HEADER_SIZE
    requested_size := 0
    free := true
    cacheable := false
    cache_hits := 0 }

/-- `allocator_init`: lazily create the spanning free block and initialize
the default cache. -/
def allocator_init (s : AllocState) : AllocState :=
  if s.blocks.isEmpty then
    { s with
      blocks := [initBlock]
      cache := if s.cache_initialized then s.cache else defaultCache
      cache_initialized := true }
  else s

/-- `allocator_malloc(size, strategy)`: returns the new state and the result
(`-1` on failure, otherwise the block id). -/
def allocator_malloc (s : AllocState) (size : Nat) (strategy : FitStrategy) :
    AllocState × Int :=
  let s0 := allocator_init s
  if size = 0 then (s0, -1)
  else
    let s1 := { s0 with alloc_requests := s0.alloc_requests + 1 }
    let requested_size := size
    let aligned_size := align_size size
    match find_fit s1.blocks aligned_size strategy with
    | none => ({ s1 with alloc_fail := s1.alloc_fail + 1 }, -1)
    | some block =>
      let sp := split_block_if_needed block aligned_size
      let allocated : BlockHeader :=
        { sp.1 with
          free := false
          id := s1.next_id
          cacheable := true
          cache_hits := 0
          start := sp.1.addr + HEADER_SIZE
          requested_size := requested_size }
      let blocks := replaceBlock block.addr (allocated :: sp.2.toList) s1.blocks
      let mem := memset s1.mem allocated.start allocated.size PATTERN_UNINITIALIZED
      let s2 := { s1 with
        blocks := blocks
        mem := mem
        next_id := s1.next_id + 1
        alloc_success := s1.alloc_success + 1 }
      let offset : Int := (allocated.start : Int)
      if offset < 0 ∨ (HEAP_SIZE : Int) ≤ offset then (s2, -1) else (s2, allocated.id)

/-- `allocator_free(id)`. -/
def allocator_free (s : AllocState) (id : Int) : AllocState :=
  let s0 := allocator_init s
  if id < 0 then s0
  else
    match find_block_by_id s0.blocks id with
    | none => s0
    | some hdr =>
      let blocks := update_block_by_id id
        (fun b => { b with free := true, id := -1, cacheable := false, cache_hits := 0 })
        s0.blocks
      let mem := memset s0.mem hdr.start hdr.size PATTERN_FREED
      { s0 with blocks := coalesce_free_blocks blocks, mem := mem }

/-- `allocator_set_block_cacheable(id, cacheable)`. -/
def allocator_set_block_cacheable (s : AllocState) (id : Int) (cacheable : Bool) : AllocState :=
  let s0 := allocator_init s
  if id < 0 then s0
  else
    match find_block_by_id s0.blocks id with
    | none => s0
    | some _ =>
      { s0 with blocks := update_block_by_id id (fun b => { b with cacheable := cacheable }) s0.blocks }

/-- `allocator_access(id, is_write)`: one cache access at the block's first
payload byte, plus the block's hit counter. -/
def allocator_access (s : AllocState) (id : Int) (is_write : Bool) : AllocState :=
  let s0 := allocator_init s
  if id < 0 then s0
  else
    match find_block_by_id s0.blocks id with
    | none => s0
    | some hdr =>
      if hdr.cacheable = false then s0
      else
        { s0 with
          cache := s0.cache.access hdr.start is_write
          blocks := update_block_by_id id (fun b => { b with cache_hits := b.cache_hits + 1 }) s0.blocks }

/-- The per-byte loop of `allocator_read`: read `remaining` bytes starting at
buffer index `i` (heap source byte `(base + i) % U64`, since `src_bytes + i`
is `uintptr_t` arithmetic), driving the cache and accumulating the garbage
flag. -/
def read_loop (mem : Nat → Nat) (base : Nat) (cache : MultiLevelCache) (dst : Nat → Nat)
    (garbage : Bool) (i : Nat) : Nat → MultiLevelCache × (Nat → Nat) × Bool
  | 0 => (cache, dst, garbage)
  | remaining + 1 =>
    let addr := (base + i) % U64
    let value := mem addr
    let cache1 := cache.access addr false
    let garbage1 := garbage || (value == PATTERN_UNINITIALIZED) || (value == PATTERN_FREED)
    read_loop mem base cache1 (fun j => if j = i then value else dst j) garbage1 (i + 1) remaining

/-- `allocator_read(id, offset, dst, size)`: returns the updated state, the
updated destination buffer, and the success flag.  `dstNull` models a null
`dst` pointer; the bounds check `offset + size > requested_size` is `size_t`
arithmetic, hence the `% U64`. -/
def allocator_read (s : AllocState) (id : Int) (offset : Nat) (dstNull : Bool)
    (dst : Nat → Nat) (n : Nat) : AllocState × (Nat → Nat) × Bool :=
  let s0 := allocator_init s
  if id < 0 ∨ dstNull = true ∨ n = 0 then (s0, dst, false)
  else
    match find_block_by_id s0.blocks id with
    | none => (s0, dst, false)
    | some hdr =>
      if hdr.free = true then (s0, dst, false)
      else if hdr.requested_size < (offset + n) % U64 then (s0, dst, false)
      else
        let r := read_loop s0.mem ((hdr.start + offset) % U64) s0.cache dst false 0 n
        ({ s0 with cache := r.1 }, r.2.1, !r.2.2)

/-- First pass of `allocator_write`: scan the destination range for poison
bytes, breaking out at the first one found. -/
def write_scan (mem : Nat → Nat) (base : Nat) (i : Nat) : Nat → Bool
  | 0 => false
  | remaining + 1 =>
    let old_value := mem ((base + i) % U64)
    if (old_value == PATTERN_UNINITIALIZED) || (old_value == PATTERN_FREED) then true
    else write_scan mem base (i + 1) remaining

/-- Second pass of `allocator_write`: copy `remaining` source bytes into the
heap starting at buffer index `i`, driving the cache per byte.  Byte stores
truncate to `uint8_t`. -/
def write_loop (mem : Nat → Nat) (base : Nat) (src : Nat → Nat) (cache : MultiLevelCache)
    (i : Nat) : Nat → MultiLevelCache × (Nat → Nat)
  | 0 => (cache, mem)
  | remaining + 1 =>
    let addr := (base + i) % U64
    let cache1 := cache.access addr true
    let mem1 := fun a => if a = addr then src i % 256 else mem a
    write_loop mem1 base src cache1 (i + 1) remaining

/-- `allocator_write(id, offset, src, size)`: returns the updated state and
the success flag.  The garbage scan's result is computed but unused, because
the early return after it is commented out in the source. -/
def allocator_write (s : AllocState) (id : Int) (offset : Nat) (srcNull : Bool)
    (src : Nat → Nat) (n : Nat) : AllocState × Bool :=
  let s0 := allocator_init s
  if id < 0 ∨ srcNull = true ∨ n = 0 then (s0, false)
  else
    match find_block_by_id s0.blocks id with
    | none => (s0, false)
    | some hdr =>
      if hdr.free = true then (s0, false)
      else if hdr.requested_size < (offset + n) % U64 then (s0, false)
      else
        let _has_garbage := write_scan s0.mem ((hdr.start + offset) % U64) 0 n
        let w := write_loop s0.mem ((hdr.start + offset) % U64) src s0.cache 0 n
        ({ s0 with cache := w.1, mem := w.2 }, true)

/-! ### The façade as a state machine -/

/-- One public façade operation (the operations quantified over by the
block-list invariants).  Arguments are the raw caller-supplied values;
buffers are paired with a nullness flag. -/
inductive AllocOp where
  | alloc (size : Nat) (strategy : FitStrategy)
  | free (id : Int)
  | read (id : Int) (offset : Nat) (dstNull : Bool) (dst : Nat → Nat) (n : Nat)
  | write (id : Int) (offset : Nat) (srcNull : Bool) (src : Nat → Nat) (n : Nat)
  | access (id : Int) (is_write : Bool)
  | set_cacheable (id : Int) (flag : Bool)

/-- Apply one façade operation to the global state.  `size_t` arguments are
reduced modulo `2 ^ 64` on entry (a C++ caller can only pass such values). -/
def allocStep (s : AllocState) : AllocOp → AllocState
  | .alloc size strategy => (allocator_malloc s (size % U64) strategy).1
  | .free id => allocator_free s id
  | .read id offset dstNull dst n => (allocator_read s id (offset % U64) dstNull dst (n % U64)).1
  | .write id offset srcNull src n => (allocator_write s id (offset % U64) srcNull src (n % U64)).1
  | .access id is_write => allocator_access s id is_write
  | .set_cacheable id flag => allocator_set_block_cacheable s id flag

/-- The process-start state: `g_head == nullptr`, zeroed `g_heap`,
`g_next_id == 0`, default-constructed `g_cache`, zeroed counters. -/
def initState : AllocState :=
  { blocks := []
    mem := fun _ => 0
    next_id := 0
    cache_initialized := false
    cache := emptyCache
    alloc_requests := 0
    alloc_success := 0
    alloc_fail := 0 }

/-- Run a sequence of façade operations from the process-start state. -/
def runOps (ops : List AllocOp) : AllocState :=
  ops.foldl allocStep initState

/-! ### Specification-side selectors and invariants -/

/-- Modelled from the spec's fit-selection words: the earliest block of
minimum size in a list (used to compare `find_fit`'s Best strategy against
"return the one with minimum size; on ties, the earliest"). -/
def minEarliest : List BlockHeader → Option BlockHeader
  | [] => none
  | b :: rest =>
    match minEarliest rest with
    | none => some b
    | some m => if m.size < b.size then some m else some b

/-- Modelled from the spec's fit-selection words: the earliest block of
maximum size in a list (the Worst strategy's "maximum size; on ties, the
earliest"). -/
def maxEarliest : List BlockHeader → Option BlockHeader
  | [] => none
  | b :: rest =>
    match maxEarliest rest with
    | none => some b
    | some m => if m.size > b.size then some m else some b

/-- The blocks from `a` up to `z` tile the byte range `[a, z)` contiguously:
each header sits at the running offset, its payload starts right after it,
and the next header follows its payload. -/
def contigSeg (a : Nat) : List BlockHeader → Nat → Prop
  | [], z => a = z
  | b :: rest, z =>
    b.addr = a ∧ b.start = b.addr + HEADER_SIZE ∧
      contigSeg (b.addr + HEADER_SIZE + b.size) rest z

def contigSegDec (a : Nat) (l : List BlockHeader) (z : Nat) : Decidable (contigSeg a l z) :=
  match l with
  | [] => inferInstanceAs (Decidable (a = z))
  | b :: rest =>
    have : Decidable (contigSeg (b.addr + HEADER_SIZE + b.size) rest z) :=
      contigSegDec (b.addr + HEADER_SIZE + b.size) rest z
    inferInstanceAs (Decidable (_ ∧ _ ∧ _))

instance (a z : Nat) (l : List BlockHeader) : Decidable (contigSeg a l z) :=
  contigSegDec a l z

/-- Distinctness of ids between two simultaneously live (allocated) blocks. -/
def liveNe (a b : BlockHeader) : Prop :=
  a.free = false → b.free = false → a.id ≠ b.id

instance (a b : BlockHeader) : Decidable (liveNe a b) :=
  inferInstanceAs (Decidable (_ → _ → _))

/-- The reachable-state invariant of the allocator:
the block list (once initialized) tiles `[0, HEAP_SIZE)`; free blocks carry
the sentinel id `-1` and are not cacheable; allocated blocks carry distinct
non-negative ids below the monotonic counter; requested sizes are `size_t`
values. -/
def AllocInv (s : AllocState) : Prop :=
  (s.blocks = [] ∨ contigSeg 0 s.blocks HEAP_SIZE) ∧
  (∀ b ∈ s.blocks, b.free = true → b.id = -1 ∧ b.cacheable = false) ∧
  (∀ b ∈ s.blocks, b.free = false → 0 ≤ b.id ∧ b.id < s.next_id) ∧
  List.Pairwise liveNe s.blocks ∧
  0 ≤ s.next_id ∧
  (∀ b ∈ s.blocks, b.requested_size < U64)

/-! ### List helper lemmas -/

theorem getD_set_self {α : Type} (l : List α) (i : Nat) (x d : α) (h : i < l.length) :
    (l.set i x).getD i d = x := by
  induction l generalizing i with
  | nil => simp at h
  | cons a rest ih =>
    cases i with
    | zero => rfl
    | succ j =>
      simp only [List.set, List.getD, List.getElem?_cons_succ]
      have := ih j (by simpa using h)
      simpa [List.getD] using this

theorem getD_set_ne {α : Type} (l : List α) (i j : Nat) (x d : α) (h : i ≠ j) :
    (l.set i x).getD j d = l.getD j d := by
  induction l generalizing i j with
  | nil => simp
  | cons a rest ih =>
    cases i with
    | zero =>
      cases j with
      | zero => exact absurd rfl h
      | succ k => rfl
    | succ i' =>
      cases j with
      | zero => rfl
      | succ k =>
        simp only [List.set, List.getD, List.getElem?_cons_succ]
        have := ih i' k (by omega)
        simpa [List.getD] using this

theorem mem_set_self {α : Type} (l : List α) (i : Nat) (x : α) (h : i < l.length) :
    x ∈ l.set i x := by
  induction l generalizing i with
  | nil => simp at h
  | cons a rest ih =>
    cases i with
    | zero => exact List.mem_cons_self _ _
    | succ j =>
      simp only [List.set]
      exact List.mem_cons_of_mem _ (ih j (by simpa using h))

theorem getD_mem {α : Type} (l : List α) (i : Nat) (d : α) (h : i < l.length) :
    l.getD i d ∈ l := by
  induction l generalizing i with
  | nil => simp at h
  | cons a rest ih =>
    cases i with
    | zero => exact List.mem_cons_self _ _
    | succ j =>
      simp only [List.getD, List.getElem?_cons_succ]
      exact List.mem_cons_of_mem _ (by simpa [List.getD] using ih j (by simpa using h))

theorem length_set_eq {α : Type} (l : List α) (i : Nat) (x : α) :
    (l.set i x).length = l.length := by
  simp

/-! ### Cache-level lemmas (towards C10) -/

theorem lookupSet_hit (tag ts : Nat) (set : List CacheLine)
    (h : ∃ line ∈ set, line.valid = true ∧ line.tag = tag) :
    (lookupSet tag ts set).2 = true := by
  induction set with
  | nil => simp at h
  | cons line rest ih =>
    obtain ⟨l, hl, hv, ht⟩ := h
    simp only [lookupSet]
    by_cases hc : (line.valid && line.tag == tag) = true
    · simp [hc]
    · rcases List.mem_cons.mp hl with rfl | hmem
      · exact absurd (by simp [hv, ht]) hc
      · simpa [hc] using ih ⟨l, hmem, hv, ht⟩

theorem fillInvalid_contains (tag ts : Nat) (set s2 : List CacheLine)
    (h : fillInvalid tag ts set = some s2) :
    ∃ line ∈ s2, line.valid = true ∧ line.tag = tag := by
  induction set generalizing s2 with
  | nil => simp [fillInvalid] at h
  | cons line rest ih =>
    simp only [fillInvalid] at h
    by_cases hv : line.valid = true
    · simp [hv] at h
      obtain ⟨t, ht, rfl⟩ := h
      obtain ⟨l, hl, p⟩ := ih t ht
      exact ⟨l, List.mem_cons_of_mem _ hl, p⟩
    · simp only [Bool.not_eq_true] at hv
      simp [hv] at h
      subst h
      exact ⟨_, List.mem_cons_self _ _, by simp⟩

theorem victim_scan_lt (L : Nat) (rest : List CacheLine) (vict : CacheLine) (vidx i : Nat)
    (hv : vidx < L) (hi : i + rest.length ≤ L) :
    victim_scan vict vidx i rest < L := by
  induction rest generalizing vict vidx i with
  | nil => simpa [victim_scan] using hv
  | cons curr rest ih =>
    have hiL : i < L := by simp at hi; omega
    have hi2 : (i + 1) + rest.length ≤ L := by simp at hi; omega
    simp only [victim_scan]
    by_cases h1 : curr.freq < vict.freq
    · simpa [h1] using ih curr i (i + 1) hiL hi2
    · by_cases h2 : (curr.freq == vict.freq && decide (curr.last_used < vict.last_used)) = true
      · simpa [h1, h2] using ih curr i (i + 1) hiL hi2
      · simpa [h1, h2] using ih vict vidx (i + 1) hv hi2

theorem insert_set_contains (lvl : CacheLevel) (addr ts : Nat)
    (hlen : lvl.m_sets.length = lvl.m_num_sets)
    (hpos : 0 < lvl.m_num_sets)
    (hne : ∀ set ∈ lvl.m_sets, set ≠ []) :
    ∃ line ∈ ((lvl.insert addr ts).m_sets.getD
        (compute_index_tag lvl.m_block_size lvl.m_num_sets addr).1 []),
      line.valid = true ∧
      line.tag = (compute_index_tag lvl.m_block_size lvl.m_num_sets addr).2 := by
  have hidx : (compute_index_tag lvl.m_block_size lvl.m_num_sets addr).1 < lvl.m_sets.length := by
    simpa [compute_index_tag, hlen] using Nat.mod_lt _ hpos
  simp only [CacheLevel.insert]
  rw [getD_set_self _ _ _ _ hidx]
  rcases hf : fillInvalid (compute_index_tag lvl.m_block_size lvl.m_num_sets addr).2 ts
      (lvl.m_sets.getD (compute_index_tag lvl.m_block_size lvl.m_num_sets addr).1 []) with _ | s2
  · have hmem := getD_mem lvl.m_sets
      (compute_index_tag lvl.m_block_size lvl.m_num_sets addr).1 [] hidx
    have hne2 := hne _ hmem
    rcases hset : lvl.m_sets.getD (compute_index_tag lvl.m_block_size lvl.m_num_sets addr).1 []
      with _ | ⟨line0, rest⟩
    · exact absurd hset hne2
    · rw [hset] at hf
      simp only [hf, hset]
      refine ⟨_, mem_set_self _ _ _ ?_, by simp⟩
      exact victim_scan_lt _ rest line0 0 1 (by simp) (by simp [Nat.add_comm])
  · simp only [hf]
    exact fillInvalid_contains _ _ _ _ hf

/-- C10: after `CacheLevel::insert(A, t)`, an immediately following
`CacheLevel::access(A, t2)` on that level hits: `insert` always leaves a
valid line whose tag matches `A` in `A`'s set.  The hypotheses state the
well-formedness the `CacheLevel` constructor establishes: the set array has
`num_sets` nonempty sets, `num_sets` and `block_size` are positive. -/
theorem C10_insert_then_access_hits (lvl : CacheLevel) (addr t t2 : Nat)
    (hlen : lvl.m_sets.length = lvl.m_num_sets)
    (hpos : 0 < lvl.m_num_sets)
    (hbs : 0 < lvl.m_block_size)
    (hne : ∀ set ∈ lvl.m_sets, set ≠ []) :
    ((lvl.insert addr t).access addr t2).2 = true := by
  have hidx : (compute_index_tag lvl.m_block_size lvl.m_num_sets addr).1 < lvl.m_sets.length := by
    simpa [compute_index_tag, hlen] using Nat.mod_lt _ hpos
  have hcontains := insert_set_contains lvl addr t hlen hpos hne
  simp only [CacheLevel.access]
  exact lookupSet_hit _ _ _ hcontains

/-- Witness for C10 at the default L1 geometry (4 KiB, 64-byte blocks,
4-way): the constructed level satisfies the well-formedness hypotheses and
an insert followed by an access hits. -/
theorem C10_witness :
    (((mkCacheLevel 4096 64 4 1 0).insert 12345 7).access 12345 9).2 = true :=
  C10_insert_then_access_hits (mkCacheLevel 4096 64 4 1 0) 12345 7 9
    (by decide) (by decide) (by decide) (by decide)

/-! ### Multi-level controller lemmas (towards C8) -/

theorem walk_levels_length (addr ts p i : Nat) (ls : List CacheLevel) :
    (walk_levels addr ts p i ls).1.length = ls.length := by
  induction ls generalizing p i with
  | nil => rfl
  | cons lvl rest ih =>
    simp only [walk_levels]
    split
    · simp
    · simpa using ih _ _

theorem walk_levels_hit_range (addr ts p i : Nat) (ls : List CacheLevel) (k : Nat)
    (h : (walk_levels addr ts p i ls).2.2.1 = some k) :
    i ≤ k ∧ k < i + ls.length := by
  induction ls generalizing p i with
  | nil => simp [walk_levels] at h
  | cons lvl rest ih =>
    simp only [walk_levels] at h
    split at h
    · simp only [Option.some.injEq] at h
      subst h
      simp
    · have := ih _ _ h
      simp only [List.length_cons]
      omega

theorem walk_levels_suffix (addr ts : Nat) (ls : List CacheLevel) :
    ∀ p i k j, (walk_levels addr ts p i ls).2.2.1 = some k → k - i < j →
      (walk_levels addr ts p i ls).1.getD j default = ls.getD j default := by
  induction ls with
  | nil => intro p i k j h hj; rfl
  | cons lvl rest ih =>
    intro p i k j h hj
    simp only [walk_levels] at h ⊢
    split at h
    · rename_i hcond
      rw [if_pos hcond]
      simp only [Option.some.injEq] at h
      subst h
      cases j with
      | zero => omega
      | succ j2 => simp
    · rename_i hcond
      rw [if_neg hcond]
      have hrange := walk_levels_hit_range addr ts _ (i + 1) rest k h
      cases j with
      | zero => omega
      | succ j2 =>
        simp only [List.getD_cons_succ]
        exact ih _ (i + 1) k j2 h (by omega)

theorem walk_levels_recs_lt (addr ts : Nat) (ls : List CacheLevel) :
    ∀ p i k, (walk_levels addr ts p i ls).2.2.1 = some k →
      ∀ r ∈ (walk_levels addr ts p i ls).2.2.2, r.1 < k := by
  induction ls with
  | nil => intro p i k h; simp [walk_levels]
  | cons lvl rest ih =>
    intro p i k h
    simp only [walk_levels] at h ⊢
    split at h
    · rename_i hcond
      rw [if_pos hcond]
      simp
    · rename_i hcond
      rw [if_neg hcond]
      have hrange := walk_levels_hit_range addr ts _ (i + 1) rest k h
      intro r hr
      simp only [List.mem_cons] at hr
      rcases hr with rfl | hr
      · show i < k
        omega
      · exact ih _ (i + 1) k h r hr

theorem fill_levels_length (addr ts f i : Nat) (ls : List CacheLevel) :
    (fill_levels addr ts f i ls).length = ls.length := by
  induction ls generalizing i with
  | nil => rfl
  | cons lvl rest ih => simpa [fill_levels] using ih (i + 1)

theorem fill_levels_getD (addr ts f i : Nat) (ls : List CacheLevel) (j : Nat)
    (hj : j < ls.length) :
    (fill_levels addr ts f i ls).getD j default =
      if i + j ≤ f then (ls.getD j default).insert addr ts else ls.getD j default := by
  induction ls generalizing i j with
  | nil => simp at hj
  | cons lvl rest ih =>
    cases j with
    | zero => simp [fill_levels]
    | succ j2 =>
      simp only [fill_levels, List.getD_cons_succ]
      rw [ih (i + 1) j2 (by simpa using hj)]
      have : i + 1 + j2 = i + (j2 + 1) := by omega
      rw [this]

theorem attribute_penalty_length (t : Nat) (recs : List (Nat × Nat)) (ls : List CacheLevel) :
    (attribute_penalty t recs ls).length = ls.length := by
  induction recs generalizing ls with
  | nil => rfl
  | cons r recs ih =>
    simp only [attribute_penalty, List.foldl_cons]
    rw [show (List.foldl _ _ recs : List CacheLevel) = attribute_penalty t recs _ from rfl]
    split
    · rw [ih]
      simp
    · rw [ih]

theorem attribute_penalty_sets (t : Nat) (recs : List (Nat × Nat)) (ls : List CacheLevel)
    (j : Nat) :
    ((attribute_penalty t recs ls).getD j default).m_sets = (ls.getD j default).m_sets := by
  induction recs generalizing ls with
  | nil => rfl
  | cons r recs ih =>
    simp only [attribute_penalty, List.foldl_cons]
    rw [show (List.foldl _ _ recs : List CacheLevel) = attribute_penalty t recs _ from rfl]
    split
    · rw [ih]
      by_cases hj : r.1 = j
      · subst hj
        rename_i hlt
        rw [getD_set_self _ _ _ _ hlt]
      · rw [getD_set_ne _ _ _ _ _ hj]
    · rw [ih]

theorem attribute_penalty_untouched (t : Nat) (recs : List (Nat × Nat)) (ls : List CacheLevel)
    (j : Nat) (h : ∀ r ∈ recs, r.1 ≠ j) :
    (attribute_penalty t recs ls).getD j default = ls.getD j default := by
  induction recs generalizing ls with
  | nil => rfl
  | cons r recs ih =>
    simp only [attribute_penalty, List.foldl_cons]
    rw [show (List.foldl _ _ recs : List CacheLevel) = attribute_penalty t recs _ from rfl]
    have hr : r.1 ≠ j := h r (List.mem_cons_self _ _)
    have hrest : ∀ q ∈ recs, q.1 ≠ j := fun q hq => h q (List.mem_cons_of_mem _ hq)
    split
    · rw [ih _ hrest, getD_set_ne _ _ _ _ _ hr]
    · exact ih _ hrest

/-- C8: for every `MultiLevelCache::access` with at least one level
configured, with `ts` the logical clock value of this access and `w` the
result of the lookup walk: if the walk hits at level `k`, exactly the levels
`0 … k` get their set array replaced by an insert of the address at clock
`ts` (levels with larger index are left completely unchanged — no insert and
no lookup); if every level misses, every level `0 … levels.length - 1` gets
the insert at clock `ts`. -/
theorem C8_inclusive_fill (m : MultiLevelCache) (addr : Nat) (iw : Bool) (ts : Nat)
    (w : List CacheLevel × Nat × Option Nat × List (Nat × Nat))
    (hne : m.m_levels ≠ [])
    (hts : ts = (m.m_timestamp + 1) % U64)
    (hw : w = walk_levels addr ts 0 0 m.m_levels) :
    (m.access addr iw).m_levels.length = m.m_levels.length ∧
    (∀ k, w.2.2.1 = some k → ∀ j < m.m_levels.length,
      (j ≤ k → ((m.access addr iw).m_levels.getD j default).m_sets =
        ((w.1.getD j default).insert addr ts).m_sets) ∧
      (k < j → (m.access addr iw).m_levels.getD j default = m.m_levels.getD j default)) ∧
    (w.2.2.1 = none → ∀ j < m.m_levels.length,
      ((m.access addr iw).m_levels.getD j default).m_sets =
        ((w.1.getD j default).insert addr ts).m_sets) := by
  subst hts
  subst hw
  have hempty : m.m_levels.isEmpty = false := by
    cases hm : m.m_levels
    · exact absurd hm hne
    · rfl
  have hnpos : 0 < m.m_levels.length := List.length_pos.mpr hne
  rcases hk : (walk_levels addr ((m.m_timestamp + 1) % U64) 0 0 m.m_levels).2.2.1 with _ | k
  · have heqN : (m.access addr iw).m_levels =
        attribute_penalty
          ((walk_levels addr ((m.m_timestamp + 1) % U64) 0 0 m.m_levels).2.1 + m.m_memory_latency)
          (walk_levels addr ((m.m_timestamp + 1) % U64) 0 0 m.m_levels).2.2.2
          (fill_levels addr ((m.m_timestamp + 1) % U64) (m.m_levels.length - 1) 0
            (walk_levels addr ((m.m_timestamp + 1) % U64) 0 0 m.m_levels).1) := by
      simp only [MultiLevelCache.access, hempty, Bool.false_eq_true, if_false, hk]
      simp
    refine ⟨?_, ?_, ?_⟩
    · rw [heqN, attribute_penalty_length, fill_levels_length, walk_levels_length]
    · intro k2 hk2
      simp [hk] at hk2
    · intro _ j hj
      rw [heqN, attribute_penalty_sets, fill_levels_getD]
      · rw [if_pos (by omega)]
      · rw [walk_levels_length]
        exact hj
  · have hkn : k < m.m_levels.length := by
      have := walk_levels_hit_range addr ((m.m_timestamp + 1) % U64) 0 0 m.m_levels k hk
      omega
    have heqS : (m.access addr iw).m_levels =
        attribute_penalty
          (walk_levels addr ((m.m_timestamp + 1) % U64) 0 0 m.m_levels).2.1
          (walk_levels addr ((m.m_timestamp + 1) % U64) 0 0 m.m_levels).2.2.2
          (fill_levels addr ((m.m_timestamp + 1) % U64) k 0
            (walk_levels addr ((m.m_timestamp + 1) % U64) 0 0 m.m_levels).1) := by
      simp only [MultiLevelCache.access, hempty, Bool.false_eq_true, if_false, hk]
      rw [if_neg (Nat.ne_of_lt hkn)]
    refine ⟨?_, ?_, ?_⟩
    · rw [heqS, attribute_penalty_length, fill_levels_length, walk_levels_length]
    · intro k2 hk2
      obtain rfl := Option.some.inj hk2
      intro j hj
      constructor
      · intro hjk
        rw [heqS, attribute_penalty_sets, fill_levels_getD]
        · rw [if_pos (by omega)]
        · rw [walk_levels_length]
          exact hj
      · intro hkj
        rw [heqS, attribute_penalty_untouched]
        · rw [fill_levels_getD]
          · rw [if_neg (by omega)]
            exact walk_levels_suffix addr ((m.m_timestamp + 1) % U64) m.m_levels 0 0 k j hk
              (by omega)
          · rw [walk_levels_length]
            exact hj
        · intro r hr
          have := walk_levels_recs_lt addr ((m.m_timestamp + 1) % U64) m.m_levels 0 0 k hk r hr
          omega
    · intro hnone
      exact Option.noConfusion hnone

/-- Witness for C8: the default two-level cache on its first access (a full
miss), instantiating the theorem and evaluating its length conclusion. -/
theorem C8_witness :
    (defaultCache.m_levels ≠ []) ∧
    (defaultCache.access 500 false).m_levels.length = defaultCache.m_levels.length :=
  ⟨by decide,
    (C8_inclusive_fill defaultCache 500 false ((defaultCache.m_timestamp + 1) % U64)
      (walk_levels 500 ((defaultCache.m_timestamp + 1) % U64) 0 0 defaultCache.m_levels)
      (by decide) rfl rfl).1⟩

/-! ### Fit-selection lemmas (towards C5) -/

theorem minEarliest_none_iff (l : List BlockHeader) : minEarliest l = none ↔ l = [] := by
  cases l with
  | nil => simp [minEarliest]
  | cons b rest =>
    simp only [minEarliest]
    rcases h : minEarliest rest with _ | m <;> simp
    split <;> simp

theorem maxEarliest_none_iff (l : List BlockHeader) : maxEarliest l = none ↔ l = [] := by
  cases l with
  | nil => simp [maxEarliest]
  | cons b rest =>
    simp only [maxEarliest]
    rcases h : maxEarliest rest with _ | m <;> simp
    split <;> simp

theorem minEarliest_mem (l : List BlockHeader) (m : BlockHeader) (h : minEarliest l = some m) :
    m ∈ l := by
  induction l generalizing m with
  | nil => simp [minEarliest] at h
  | cons b rest ih =>
    simp only [minEarliest] at h
    rcases h2 : minEarliest rest with _ | m2 <;> simp only [h2] at h
    · obtain rfl := Option.some.inj h
      exact List.mem_cons_self _ _
    · split at h
      · obtain rfl := Option.some.inj h
        exact List.mem_cons_of_mem _ (ih _ h2)
      · obtain rfl := Option.some.inj h
        exact List.mem_cons_self _ _

theorem maxEarliest_mem (l : List BlockHeader) (m : BlockHeader) (h : maxEarliest l = some m) :
    m ∈ l := by
  induction l generalizing m with
  | nil => simp [maxEarliest] at h
  | cons b rest ih =>
    simp only [maxEarliest] at h
    rcases h2 : maxEarliest rest with _ | m2 <;> simp only [h2] at h
    · obtain rfl := Option.some.inj h
      exact List.mem_cons_self _ _
    · split at h
      · obtain rfl := Option.some.inj h
        exact List.mem_cons_of_mem _ (ih _ h2)
      · obtain rfl := Option.some.inj h
        exact List.mem_cons_self _ _

theorem minEarliest_spec (l : List BlockHeader)
    (hs : List.Pairwise (fun a b => a.addr < b.addr) l) (m : BlockHeader)
    (h : minEarliest l = some m) :
    ∀ c ∈ l, m.size ≤ c.size ∧ (c.size = m.size → m.addr ≤ c.addr) := by
  induction l generalizing m with
  | nil => simp [minEarliest] at h
  | cons b rest ih =>
    have hpair := List.pairwise_cons.mp hs
    simp only [minEarliest] at h
    rcases h2 : minEarliest rest with _ | m2 <;> simp only [h2] at h
    · obtain rfl := (minEarliest_none_iff rest).mp h2
      obtain rfl := Option.some.inj h
      intro c hc
      simp only [List.mem_cons, List.not_mem_nil, or_false] at hc
      subst hc
      exact ⟨le_refl _, fun _ => le_refl _⟩
    · have ihm2 := ih hpair.2 m2 h2
      have hm2mem := minEarliest_mem rest m2 h2
      split at h
      · rename_i hlt
        obtain rfl := Option.some.inj h
        intro c hc
        rcases List.mem_cons.mp hc with rfl | hc
        · exact ⟨Nat.le_of_lt hlt, fun hcs => absurd hcs (by omega)⟩
        · exact ihm2 c hc
      · rename_i hnlt
        obtain rfl := Option.some.inj h
        intro c hc
        rcases List.mem_cons.mp hc with rfl | hc
        · exact ⟨le_refl _, fun _ => le_refl _⟩
        · have h1 := ihm2 c hc
          refine ⟨by omega, fun hcs => ?_⟩
          exact Nat.le_of_lt (hpair.1 c hc)

theorem maxEarliest_spec (l : List BlockHeader)
    (hs : List.Pairwise (fun a b => a.addr < b.addr) l) (m : BlockHeader)
    (h : maxEarliest l = some m) :
    ∀ c ∈ l, c.size ≤ m.size ∧ (c.size = m.size → m.addr ≤ c.addr) := by
  induction l generalizing m with
  | nil => simp [maxEarliest] at h
  | cons b rest ih =>
    have hpair := List.pairwise_cons.mp hs
    simp only [maxEarliest] at h
    rcases h2 : maxEarliest rest with _ | m2 <;> simp only [h2] at h
    · obtain rfl := (maxEarliest_none_iff rest).mp h2
      obtain rfl := Option.some.inj h
      intro c hc
      simp only [List.mem_cons, List.not_mem_nil, or_false] at hc
      subst hc
      exact ⟨le_refl _, fun _ => le_refl _⟩
    · have ihm2 := ih hpair.2 m2 h2
      have hm2mem := maxEarliest_mem rest m2 h2
      split at h
      · rename_i hlt
        obtain rfl := Option.some.inj h
        intro c hc
        rcases List.mem_cons.mp hc with rfl | hc
        · exact ⟨Nat.le_of_lt hlt, fun hcs => absurd hcs (by omega)⟩
        · exact ihm2 c hc
      · rename_i hnlt
        obtain rfl := Option.some.inj h
        intro c hc
        rcases List.mem_cons.mp hc with rfl | hc
        · exact ⟨le_refl _, fun _ => le_refl _⟩
        · have h1 := ihm2 c hc
          refine ⟨by omega, fun hcs => ?_⟩
          exact Nat.le_of_lt (hpair.1 c hc)

theorem minEarliest_merge (c b : BlockHeader) (qs : List BlockHeader) :
    minEarliest (c :: b :: qs) = minEarliest ((if b.size < c.size then b else c) :: qs) := by
  rcases h : minEarliest qs with _ | m
  · by_cases hbc : b.size < c.size <;> simp [minEarliest, h, hbc]
  · by_cases hbc : b.size < c.size <;> by_cases hmb : m.size < b.size <;>
      by_cases hmc : m.size < c.size <;>
      simp -failIfUnchanged [minEarliest, h, hbc, hmb, hmc] <;>
      first | rfl | (exfalso; omega)

theorem maxEarliest_merge (c b : BlockHeader) (qs : List BlockHeader) :
    maxEarliest (c :: b :: qs) = maxEarliest ((if b.size > c.size then b else c) :: qs) := by
  rcases h : maxEarliest qs with _ | m
  · by_cases hbc : b.size > c.size <;> simp [maxEarliest, h, hbc]
  · by_cases hbc : b.size > c.size <;> by_cases hmb : m.size > b.size <;>
      by_cases hmc : m.size > c.size <;>
      simp -failIfUnchanged [maxEarliest, h, hbc, hmb, hmc] <;>
      first | rfl | (exfalso; omega)

theorem fitQualifies_iff (S : Nat) (b : BlockHeader) :
    fitQualifies S b = true ↔ b.free = true ∧ S ≤ b.size := by
  simp [fitQualifies]

theorem find_fit_go_first (size : Nat) : ∀ (l : List BlockHeader) (cand : Option BlockHeader),
    find_fit_go size .First cand l =
      match (l.filter (fun b => fitQualifies size b)).head? with
      | some b => some b
      | none => cand := by
  intro l
  induction l with
  | nil => intro cand; rfl
  | cons curr rest ih =>
    intro cand
    by_cases hq : fitQualifies size curr = true
    · simp [find_fit_go, hq, List.filter_cons]
    · simp only [find_fit_go, hq, Bool.not_false, if_true, List.filter_cons,
        Bool.false_eq_true, ite_false]
      exact ih cand

theorem find_fit_first_eq (blocks : List BlockHeader) (S : Nat) :
    find_fit blocks S .First = (blocks.filter (fun b => fitQualifies S b)).head? := by
  rw [find_fit, find_fit_go_first]
  rcases (blocks.filter (fun b => fitQualifies S b)).head? with _ | b <;> rfl

theorem find_fit_go_best (size : Nat) : ∀ (l : List BlockHeader) (cand : Option BlockHeader),
    find_fit_go size .Best cand l =
      minEarliest (cand.toList ++ l.filter (fun b => fitQualifies size b)) := by
  intro l
  induction l with
  | nil =>
    intro cand
    cases cand with
    | none => rfl
    | some c => simp [find_fit_go, minEarliest]
  | cons curr rest ih =>
    intro cand
    by_cases hq : fitQualifies size curr = true
    · cases cand with
      | none =>
        simp only [find_fit_go, hq, Bool.not_true, Bool.false_eq_true, ite_false,
          reduceCtorEq, List.filter_cons, if_true, Option.toList_none, List.nil_append,
          if_pos hq]
        rw [ih (some curr)]
        rfl
      | some c =>
        simp only [find_fit_go, hq, Bool.not_true, Bool.false_eq_true, ite_false,
          reduceCtorEq, List.filter_cons, if_pos hq, Option.toList_some, List.cons_append,
          List.nil_append, eq_self_iff_true, if_true]
        rw [minEarliest_merge]
        by_cases hcc : curr.size < c.size
        · rw [if_pos hcc, if_pos hcc, ih (some curr)]
          rfl
        · rw [if_neg hcc, if_neg hcc, ih (some c)]
          rfl
    · cases cand with
      | none =>
        simp only [find_fit_go, hq, Bool.not_false, if_true, List.filter_cons,
          Bool.false_eq_true, ite_false]
        exact ih none
      | some c =>
        simp only [find_fit_go, hq, Bool.not_false, if_true, List.filter_cons,
          Bool.false_eq_true, ite_false]
        exact ih (some c)

theorem find_fit_go_worst (size : Nat) : ∀ (l : List BlockHeader) (cand : Option BlockHeader),
    find_fit_go size .Worst cand l =
      maxEarliest (cand.toList ++ l.filter (fun b => fitQualifies size b)) := by
  intro l
  induction l with
  | nil =>
    intro cand
    cases cand with
    | none => rfl
    | some c => simp [find_fit_go, maxEarliest]
  | cons curr rest ih =>
    intro cand
    by_cases hq : fitQualifies size curr = true
    · cases cand with
      | none =>
        simp only [find_fit_go, hq, Bool.not_true, Bool.false_eq_true, ite_false,
          reduceCtorEq, List.filter_cons, if_true, Option.toList_none, List.nil_append,
          if_pos hq]
        rw [ih (some curr)]
        rfl
      | some c =>
        simp only [find_fit_go, hq, Bool.not_true, Bool.false_eq_true, ite_false,
          reduceCtorEq, List.filter_cons, if_pos hq, Option.toList_some, List.cons_append,
          List.nil_append, eq_self_iff_true, if_true]
        rw [maxEarliest_merge]
        by_cases hcc : curr.size > c.size
        · rw [if_pos hcc, if_pos hcc, ih (some curr)]
          rfl
        · rw [if_neg hcc, if_neg hcc, ih (some c)]
          rfl
    · cases cand with
      | none =>
        simp only [find_fit_go, hq, Bool.not_false, if_true, List.filter_cons,
          Bool.false_eq_true, ite_false]
        exact ih none
      | some c =>
        simp only [find_fit_go, hq, Bool.not_false, if_true, List.filter_cons,
          Bool.false_eq_true, ite_false]
        exact ih (some c)

theorem find_fit_best_eq (blocks : List BlockHeader) (S : Nat) :
    find_fit blocks S .Best = minEarliest (blocks.filter (fun b => fitQualifies S b)) := by
  rw [find_fit, find_fit_go_best]
  rfl

theorem find_fit_worst_eq (blocks : List BlockHeader) (S : Nat) :
    find_fit blocks S .Worst = maxEarliest (blocks.filter (fun b => fitQualifies S b)) := by
  rw [find_fit, find_fit_go_worst]
  rfl

/-- C5: `find_fit` considers exactly the free blocks with `size ≥ S`, walking
head to tail.  Under the block-list ordering (addresses strictly increase
along the list): First returns the qualifying block of least address; Best
returns a qualifying block of minimum size whose address is least among the
qualifying blocks of that size; Worst symmetrically with maximum size; and
every strategy returns none exactly when no block qualifies. -/
theorem C5_find_fit_spec (blocks : List BlockHeader) (S : Nat)
    (hsorted : List.Pairwise (fun a b => a.addr < b.addr) blocks) :
    (∀ b, find_fit blocks S .First = some b →
      b ∈ blocks ∧ b.free = true ∧ S ≤ b.size ∧
        ∀ c ∈ blocks, c.free = true → S ≤ c.size → b.addr ≤ c.addr) ∧
    (∀ b, find_fit blocks S .Best = some b →
      b ∈ blocks ∧ b.free = true ∧ S ≤ b.size ∧
        ∀ c ∈ blocks, c.free = true → S ≤ c.size →
          b.size ≤ c.size ∧ (c.size = b.size → b.addr ≤ c.addr)) ∧
    (∀ b, find_fit blocks S .Worst = some b →
      b ∈ blocks ∧ b.free = true ∧ S ≤ b.size ∧
        ∀ c ∈ blocks, c.free = true → S ≤ c.size →
          c.size ≤ b.size ∧ (c.size = b.size → b.addr ≤ c.addr)) ∧
    (∀ strategy, find_fit blocks S strategy = none ↔
      ∀ c ∈ blocks, ¬(c.free = true ∧ S ≤ c.size)) := by
  have hfsorted : List.Pairwise (fun a b => a.addr < b.addr)
      (blocks.filter (fun b => fitQualifies S b)) :=
    hsorted.sublist (List.filter_sublist blocks)
  have hmemf : ∀ c ∈ blocks, c.free = true → S ≤ c.size →
      c ∈ blocks.filter (fun b => fitQualifies S b) := by
    intro c hc hf hs
    exact List.mem_filter.mpr ⟨hc, (fitQualifies_iff S c).mpr ⟨hf, hs⟩⟩
  refine ⟨?_, ?_, ?_, ?_⟩
  · intro b hb
    rw [find_fit_first_eq] at hb
    rcases hfil : blocks.filter (fun b => fitQualifies S b) with _ | ⟨b0, t⟩
    · rw [hfil] at hb
      exact Option.noConfusion hb
    · rw [hfil] at hb
      obtain rfl := (Option.some.inj hb).symm
      have hbf : b ∈ blocks.filter (fun b => fitQualifies S b) := by
        rw [hfil]; exact List.mem_cons_self _ _
      have hq := (fitQualifies_iff S b).mp (List.mem_filter.mp hbf).2
      refine ⟨(List.mem_filter.mp hbf).1, hq.1, hq.2, ?_⟩
      intro c hc hcf hcs
      have hcfil := hmemf c hc hcf hcs
      rw [hfil] at hcfil
      rcases List.mem_cons.mp hcfil with rfl | hct
      · exact le_refl _
      · rw [hfil] at hfsorted
        exact Nat.le_of_lt ((List.pairwise_cons.mp hfsorted).1 c hct)
  · intro b hb
    rw [find_fit_best_eq] at hb
    have hbf := minEarliest_mem _ _ hb
    have hq := (fitQualifies_iff S b).mp (List.mem_filter.mp hbf).2
    refine ⟨(List.mem_filter.mp hbf).1, hq.1, hq.2, ?_⟩
    intro c hc hcf hcs
    have hcfil := hmemf c hc hcf hcs
    exact minEarliest_spec _ hfsorted b hb c hcfil
  · intro b hb
    rw [find_fit_worst_eq] at hb
    have hbf := maxEarliest_mem _ _ hb
    have hq := (fitQualifies_iff S b).mp (List.mem_filter.mp hbf).2
    refine ⟨(List.mem_filter.mp hbf).1, hq.1, hq.2, ?_⟩
    intro c hc hcf hcs
    have hcfil := hmemf c hc hcf hcs
    exact maxEarliest_spec _ hfsorted b hb c hcfil
  · have hnil : blocks.filter (fun b => fitQualifies S b) = [] ↔
        ∀ c ∈ blocks, ¬(c.free = true ∧ S ≤ c.size) := by
      rw [List.filter_eq_nil_iff]
      constructor
      · intro h c hc hcq
        exact h c hc ((fitQualifies_iff S c).mpr hcq)
      · intro h c hc hq
        exact h c hc ((fitQualifies_iff S c).mp hq)
    intro strategy
    cases strategy with
    | First =>
      rw [find_fit_first_eq, ← hnil]
      exact List.head?_eq_none_iff
    | Best =>
      rw [find_fit_best_eq, ← hnil]
      exact minEarliest_none_iff _
    | Worst =>
      rw [find_fit_worst_eq, ← hnil]
      exact maxEarliest_none_iff _

/-- Witness for C5: on a concrete two-block list (an allocated block followed
by a free 64-byte hole) no block qualifies for a request of 1000 bytes, so
the search fails; instantiated through the theorem's none-case. -/
theorem C5_witness :
    find_fit
      [{ id := 0, addr := 0, start := 56, size := 112, requested_size := 100,
         free := false, cacheable := true, cache_hits := 0 },
       { id := -1, addr := 168, start := 224, size := 64, requested_size := 0,
         free := true, cacheable := false, cache_hits := 0 }] 1000 .Best = none :=
  ((C5_find_fit_spec _ 1000 (by decide)).2.2.2 .Best).mpr (by decide)

/-- C6: with `R = chosen.size - S` (and `S ≤ chosen.size` as
`allocator_malloc` guarantees), `split_block_if_needed` splits exactly when
`R > header_size + 8`: the chosen block's payload shrinks to `S` and the new
free block — linked immediately after it by the splice in `allocator_malloc`
— sits at offset `chosen.addr + header_size + S` with payload size
`R - header_size`, id `-1`, `requested_size` 0, not cacheable; otherwise the
block is returned unchanged. -/
theorem C6_split_spec (block : BlockHeader) (S : Nat) (hS : S ≤ block.size) :
    (HEADER_SIZE + 8 < block.size - S →
      split_block_if_needed block S =
        ({ block with size := S },
         some { id := -1
                addr := block.addr + HEADER_SIZE + S
                start := block.addr + HEADER_SIZE + S + HEADER_SIZE
                size := (block.size - S) - HEADER_SIZE
                requested_size := 0
                free := true
                cacheable := false
                cache_hits := 0 })) ∧
    (block.size - S ≤ HEADER_SIZE + 8 →
      split_block_if_needed block S = (block, none)) := by
  constructor
  · intro h
    rw [split_block_if_needed, if_neg (by omega)]
  · intro h
    rw [split_block_if_needed, if_pos h]

/-- Witness for C6: both cases at concrete blocks — a 65480-byte free block
split by a 112-byte request, and a 112-byte block left whole by a 112-byte
request. -/
theorem C6_witness :
    (split_block_if_needed initBlock 112 =
      ({ initBlock with size := 112 },
       some { id := -1, addr := 168, start := 224, size := 65312,
              requested_size := 0, free := true, cacheable := false, cache_hits := 0 })) ∧
    (split_block_if_needed { initBlock with size := 112 } 112 =
      ({ initBlock with size := 112 }, none)) :=
  ⟨by
    have h := (C6_split_spec initBlock 112 (by decide)).1 (by decide)
    simpa using h,
   (C6_split_spec { initBlock with size := 112 } 112 (by decide)).2 (by decide)⟩

/-! ### Read/write loop characterizations (towards C2, C3, C4) -/

theorem find_block_by_id_spec (blocks : List BlockHeader) (id : Int) (hdr : BlockHeader)
    (h : find_block_by_id blocks id = some hdr) :
    hdr ∈ blocks ∧ hdr.free = false ∧ hdr.id = id := by
  induction blocks with
  | nil => simp [find_block_by_id] at h
  | cons b rest ih =>
    simp only [find_block_by_id] at h
    split at h
    · rename_i hc
      obtain rfl := (Option.some.inj h).symm
      exact ⟨List.mem_cons_self _ _, hc.1, hc.2⟩
    · have := ih h
      exact ⟨List.mem_cons_of_mem _ this.1, this.2⟩

theorem read_loop_dst : ∀ (remaining : Nat) (mem : Nat → Nat) (base : Nat)
    (cache : MultiLevelCache) (dst : Nat → Nat) (g : Bool) (i j : Nat),
    (read_loop mem base cache dst g i remaining).2.1 j =
      if i ≤ j ∧ j < i + remaining then mem ((base + j) % U64) else dst j := by
  intro remaining
  induction remaining with
  | zero =>
    intro mem base cache dst g i j
    rw [if_neg (by omega)]
    rfl
  | succ rem ih =>
    intro mem base cache dst g i j
    simp only [read_loop]
    rw [ih]
    by_cases h2 : j = i
    · subst h2
      rw [if_neg (by omega), if_pos (by omega)]
      exact (if_pos (by omega : j ≤ j ∧ j < j + (rem + 1))).symm
    · by_cases h1 : i + 1 ≤ j ∧ j < i + 1 + rem
      · rw [if_pos h1, if_pos (by omega)]
      · rw [if_neg h1, if_neg (by omega)]
        exact (if_neg (by omega : ¬(i ≤ j ∧ j < i + (rem + 1)))).symm

theorem read_loop_garbage : ∀ (remaining : Nat) (mem : Nat → Nat) (base : Nat)
    (cache : MultiLevelCache) (dst : Nat → Nat) (g : Bool) (i : Nat),
    (read_loop mem base cache dst g i remaining).2.2 = true ↔
      g = true ∨ ∃ j, i ≤ j ∧ j < i + remaining ∧
        (mem ((base + j) % U64) = PATTERN_UNINITIALIZED ∨
         mem ((base + j) % U64) = PATTERN_FREED) := by
  intro remaining
  induction remaining with
  | zero =>
    intro mem base cache dst g i
    constructor
    · intro h
      exact Or.inl h
    · intro h
      rcases h with h | ⟨j, hj1, hj2, _⟩
      · exact h
      · omega
  | succ rem ih =>
    intro mem base cache dst g i
    simp only [read_loop]
    rw [ih]
    constructor
    · intro h
      rcases h with hg | ⟨j, hj1, hj2, hj3⟩
      · simp only [Bool.or_eq_true, beq_iff_eq] at hg
        rcases hg with (hg | hv) | hv
        · exact Or.inl hg
        · exact Or.inr ⟨i, le_refl _, by omega, Or.inl hv⟩
        · exact Or.inr ⟨i, le_refl _, by omega, Or.inr hv⟩
      · exact Or.inr ⟨j, by omega, by omega, hj3⟩
    · intro h
      rcases h with hg | ⟨j, hj1, hj2, hj3⟩
      · exact Or.inl (by simp [hg])
      · by_cases hji : j = i
        · subst hji
          refine Or.inl ?_
          rcases hj3 with h3 | h3 <;> simp [h3]
        · exact Or.inr ⟨j, by omega, by omega, hj3⟩

theorem write_loop_mem : ∀ (remaining : Nat) (mem : Nat → Nat) (base : Nat)
    (src : Nat → Nat) (cache : MultiLevelCache) (i : Nat),
    base + i + remaining ≤ U64 →
    (∀ j, i ≤ j → j < i + remaining →
      (write_loop mem base src cache i remaining).2 (base + j) = src j % 256) ∧
    (∀ a, (∀ j, i ≤ j → j < i + remaining → a ≠ base + j) →
      (write_loop mem base src cache i remaining).2 a = mem a) := by
  intro remaining
  induction remaining with
  | zero =>
    intro mem base src cache i _
    exact ⟨fun j h1 h2 => by omega, fun a _ => rfl⟩
  | succ rem ih =>
    intro mem base src cache i hle
    have hbi : base + i < U64 := by omega
    have hmod : (base + i) % U64 = base + i := Nat.mod_eq_of_lt hbi
    have ihs := ih (fun a => if a = (base + i) % U64 then src i % 256 else mem a) base src
      (cache.access ((base + i) % U64) true) (i + 1) (by omega)
    have hred : (write_loop mem base src cache i (rem + 1)).2 =
        (write_loop (fun a => if a = (base + i) % U64 then src i % 256 else mem a) base src
          (cache.access ((base + i) % U64) true) (i + 1) rem).2 := rfl
    constructor
    · intro j h1 h2
      rw [hred]
      by_cases hji : j = i
      · rw [hji]
        have h3 := ihs.2 (base + i) (by intro j2 hj2a hj2b; omega)
        rw [h3]
        simp [hmod]
      · exact ihs.1 j (by omega) (by omega)
    · intro a ha
      rw [hred]
      have h3 := ihs.2 a (fun j2 hj2a hj2b => ha j2 (by omega) (by omega))
      rw [h3]
      have hne : ¬(a = (base + i) % U64) := by
        rw [hmod]
        exact ha i (le_refl _) (by omega)
      exact if_neg hne

/-- C3 counterexample: the bounds check `offset + size > requested_size` is
`size_t` arithmetic and wraps.  After `allocate(1)` (block id 0 with
`requested_size = 1`), `write(0, 2^64 - 2, src, 2)` has exact
`offset + n = 2^64 > 1`, yet the wrapped sum is `0 ≤ 1`, so the write
proceeds and returns true instead of the claimed false. -/
theorem C3_counterexample :
    (allocator_write (runOps [.alloc 1 .First]) 0 (U64 - 2) false (fun _ => 171) 2).2 = true ∧
    Option.map (fun h => h.requested_size)
      (find_block_by_id (runOps [.alloc 1 .First]).blocks 0) = some 1 ∧
    1 < U64 - 2 + 2 := by
  refine ⟨by decide, by decide, by decide⟩

/-- C3 (amended): `read` and `write` return false whenever `id < 0`, the
buffer is null, `n = 0`, no allocated block has the id, or `offset + n`
computed modulo `2^64` (`size_t` wrap-around) exceeds the block's
`requested_size`; in every such failure case the returned state is exactly
the (lazily initialized) input state — no heap byte, no destination byte and
no cache state is modified. -/
theorem C3_read_write_failure (s : AllocState) (id : Int) (offset : Nat)
    (bufNull : Bool) (dst src : Nat → Nat) (n : Nat)
    (h : id < 0 ∨ bufNull = true ∨ n = 0 ∨
      find_block_by_id (allocator_init s).blocks id = none ∨
      (∃ hdr, find_block_by_id (allocator_init s).blocks id = some hdr ∧
        hdr.requested_size < (offset + n) % U64)) :
    allocator_read s id offset bufNull dst n = (allocator_init s, dst, false) ∧
    allocator_write s id offset bufNull src n = (allocator_init s, false) := by
  by_cases hc1 : id < 0 ∨ bufNull = true ∨ n = 0
  · constructor
    · rw [allocator_read, if_pos hc1]
    · rw [allocator_write, if_pos hc1]
  · have h2 : find_block_by_id (allocator_init s).blocks id = none ∨
        (∃ hdr, find_block_by_id (allocator_init s).blocks id = some hdr ∧
          hdr.requested_size < (offset + n) % U64) := by
      rcases h with h | h | h | h | h
      · exact absurd (Or.inl h) hc1
      · exact absurd (Or.inr (Or.inl h)) hc1
      · exact absurd (Or.inr (Or.inr h)) hc1
      · exact Or.inl h
      · exact Or.inr h
    rcases h2 with hfind | ⟨hdr, hfind, hbound⟩
    · constructor
      · rw [allocator_read, if_neg hc1]
        simp only [hfind]
      · rw [allocator_write, if_neg hc1]
        simp only [hfind]
    · have hfree : hdr.free = false := (find_block_by_id_spec _ _ _ hfind).2.1
      constructor
      · rw [allocator_read, if_neg hc1]
        simp only [hfind, hfree, Bool.false_eq_true, if_false]
        rw [if_pos hbound]
      · rw [allocator_write, if_neg hc1]
        simp only [hfind, hfree, Bool.false_eq_true, if_false]
        rw [if_pos hbound]

/-- Witness for C3 (amended): a read with a negative id on the fresh state
fails and changes nothing. -/
theorem C3_amended_witness :
    allocator_read initState (-1) 0 false (fun _ => 0) 5 =
      (allocator_init initState, (fun _ => 0), false) ∧
    allocator_write initState (-1) 0 false (fun _ => 0) 5 =
      (allocator_init initState, false) :=
  C3_read_write_failure initState (-1) 0 false (fun _ => 0) (fun _ => 0) 5
    (Or.inl (by decide))

/-- C2: for an allocated block and a valid in-bounds range (`n > 0`,
`offset + n ≤ requested_size`, non-null source of byte values),
`allocator_write` returns true and copies all `n` source bytes into the
block's payload — regardless of what the destination bytes held before, in
particular when they held the poison patterns `0xCD`/`0xDD` (the scan's
early return is commented out in the source, so no hypothesis about prior
contents is needed). -/
theorem C2_write_valid_range (s : AllocState) (id : Int) (offset n : Nat)
    (src : Nat → Nat) (hdr : BlockHeader)
    (hid : 0 ≤ id)
    (hfind : find_block_by_id (allocator_init s).blocks id = some hdr)
    (hn : 0 < n)
    (hrange : offset + n ≤ hdr.requested_size)
    (hreq : hdr.requested_size < U64)
    (hfit : hdr.start + hdr.requested_size < U64)
    (hsrc : ∀ j, src j < 256) :
    (allocator_write s id offset false src n).2 = true ∧
    ∀ j < n, (allocator_write s id offset false src n).1.mem (hdr.start + offset + j) = src j := by
  have hfree : hdr.free = false := (find_block_by_id_spec _ _ _ hfind).2.1
  have hmodsum : (offset + n) % U64 = offset + n := Nat.mod_eq_of_lt (by omega)
  have hbase : (hdr.start + offset) % U64 = hdr.start + offset := Nat.mod_eq_of_lt (by omega)
  have hc1 : ¬(id < 0 ∨ (false : Bool) = true ∨ n = 0) := by
    push_neg
    exact ⟨by omega, by simp, by omega⟩
  have hred : allocator_write s id offset false src n =
      ({ allocator_init s with
          cache := (write_loop (allocator_init s).mem ((hdr.start + offset) % U64) src
            (allocator_init s).cache 0 n).1
          mem := (write_loop (allocator_init s).mem ((hdr.start + offset) % U64) src
            (allocator_init s).cache 0 n).2 }, true) := by
    rw [allocator_write, if_neg hc1]
    simp only [hfind, hfree, Bool.false_eq_true, if_false]
    rw [if_neg (by omega)]
  constructor
  · rw [hred]
  · intro j hj
    rw [hred]
    have hw := (write_loop_mem n (allocator_init s).mem (hdr.start + offset) src
      (allocator_init s).cache 0 (by omega)).1 j (by omega) (by omega)
    show (write_loop (allocator_init s).mem ((hdr.start + offset) % U64) src
      (allocator_init s).cache 0 n).2 (hdr.start + offset + j) = src j
    rw [hbase, hw]
    exact Nat.mod_eq_of_lt (hsrc j)

/-- Witness for C2: write 5 bytes into a fresh 5-byte allocation (whose
payload is entirely poison `0xCD`) — the write succeeds and byte 2 lands. -/
theorem C2_witness :
    ((allocator_write (runOps [.alloc 5 .First]) 0 0 false (fun j => (100 + j) % 256) 5).2 = true) ∧
    (allocator_write (runOps [.alloc 5 .First]) 0 0 false (fun j => (100 + j) % 256) 5).1.mem
      (56 + 0 + 2) = 102 := by
  have h := C2_write_valid_range (runOps [.alloc 5 .First]) 0 0 5 (fun j => (100 + j) % 256)
    { id := 0, addr := 0, start := 56, size := 16, requested_size := 5,
      free := false, cacheable := true, cache_hits := 0 }
    (by decide) (by decide) (by decide) (by decide) (by decide) (by decide)
    (fun j => Nat.mod_lt _ (by omega))
  exact ⟨h.1, by rw [h.2 2 (by decide)]⟩

/-- Core behavior of `allocator_read` on a valid range: the `n` source bytes
are copied into the destination buffer, the rest of the buffer is untouched,
and the returned flag is true iff no source byte is a poison pattern. -/
theorem read_valid_range_spec (s : AllocState) (id : Int) (offset n : Nat)
    (dst : Nat → Nat) (hdr : BlockHeader)
    (hid : 0 ≤ id)
    (hfind : find_block_by_id (allocator_init s).blocks id = some hdr)
    (hn : 0 < n)
    (hrange : offset + n ≤ hdr.requested_size)
    (hreq : hdr.requested_size < U64)
    (hfit : hdr.start + hdr.requested_size < U64) :
    (∀ j < n, (allocator_read s id offset false dst n).2.1 j =
      (allocator_init s).mem (hdr.start + offset + j)) ∧
    (∀ j, n ≤ j → (allocator_read s id offset false dst n).2.1 j = dst j) ∧
    ((allocator_read s id offset false dst n).2.2 = true ↔
      ∀ j < n, (allocator_init s).mem (hdr.start + offset + j) ≠ PATTERN_UNINITIALIZED ∧
        (allocator_init s).mem (hdr.start + offset + j) ≠ PATTERN_FREED) := by
  have hfree : hdr.free = false := (find_block_by_id_spec _ _ _ hfind).2.1
  have hmodsum : (offset + n) % U64 = offset + n := Nat.mod_eq_of_lt (by omega)
  have hbase : (hdr.start + offset) % U64 = hdr.start + offset := Nat.mod_eq_of_lt (by omega)
  have hc1 : ¬(id < 0 ∨ (false : Bool) = true ∨ n = 0) := by
    push_neg
    exact ⟨by omega, by simp, by omega⟩
  have hred : allocator_read s id offset false dst n =
      ({ allocator_init s with
          cache := (read_loop (allocator_init s).mem ((hdr.start + offset) % U64)
            (allocator_init s).cache dst false 0 n).1 },
        (read_loop (allocator_init s).mem ((hdr.start + offset) % U64)
          (allocator_init s).cache dst false 0 n).2.1,
        !(read_loop (allocator_init s).mem ((hdr.start + offset) % U64)
          (allocator_init s).cache dst false 0 n).2.2) := by
    rw [allocator_read, if_neg hc1]
    simp only [hfind, hfree, Bool.false_eq_true, if_false]
    rw [if_neg (by omega)]
  have haddr : ∀ j, j < n → ((hdr.start + offset) % U64 + j) % U64 = hdr.start + offset + j := by
    intro j hj
    rw [hbase]
    exact Nat.mod_eq_of_lt (by omega)
  refine ⟨?_, ?_, ?_⟩
  · intro j hj
    rw [hred]
    show (read_loop (allocator_init s).mem ((hdr.start + offset) % U64)
      (allocator_init s).cache dst false 0 n).2.1 j =
      (allocator_init s).mem (hdr.start + offset + j)
    rw [read_loop_dst, if_pos (by omega), haddr j hj]
  · intro j hj
    rw [hred]
    show (read_loop (allocator_init s).mem ((hdr.start + offset) % U64)
      (allocator_init s).cache dst false 0 n).2.1 j = dst j
    rw [read_loop_dst, if_neg (by omega)]
  · rw [hred]
    show (!(read_loop (allocator_init s).mem ((hdr.start + offset) % U64)
      (allocator_init s).cache dst false 0 n).2.2) = true ↔ _
    rw [Bool.not_eq_true']
    rw [← Bool.not_eq_true]
    rw [read_loop_garbage]
    constructor
    · intro hng j hj
      push_neg at hng
      obtain ⟨-, hng2⟩ := hng
      have := hng2 j (by omega) (by omega)
      rw [haddr j hj] at this
      exact this
    · intro hall
      push_neg
      refine ⟨by simp, ?_⟩
      intro j hj1 hj2
      rw [haddr j (by omega)]
      exact hall j (by omega)

/-- C4: for an allocated block and a valid range (`n > 0`,
`offset + n ≤ requested_size`, non-null destination), `allocator_read`
copies all `n` source bytes into the destination buffer (leaving the rest of
the buffer untouched) and returns true if and only if none of the `n` source
bytes equals `0xCD` or `0xDD`. -/
theorem C4_read_valid_range (s : AllocState) (id : Int) (offset n : Nat)
    (dst : Nat → Nat) (hdr : BlockHeader)
    (hid : 0 ≤ id)
    (hfind : find_block_by_id (allocator_init s).blocks id = some hdr)
    (hn : 0 < n)
    (hrange : offset + n ≤ hdr.requested_size)
    (hreq : hdr.requested_size < U64)
    (hfit : hdr.start + hdr.requested_size < U64) :
    (∀ j < n, (allocator_read s id offset false dst n).2.1 j =
      (allocator_init s).mem (hdr.start + offset + j)) ∧
    (∀ j, n ≤ j → (allocator_read s id offset false dst n).2.1 j = dst j) ∧
    ((allocator_read s id offset false dst n).2.2 = true ↔
      ∀ j < n, (allocator_init s).mem (hdr.start + offset + j) ≠ PATTERN_UNINITIALIZED ∧
        (allocator_init s).mem (hdr.start + offset + j) ≠ PATTERN_FREED) :=
  read_valid_range_spec s id offset n dst hdr hid hfind hn hrange hreq hfit

/-- Witness for C4: reading a fresh 4-byte allocation fills the buffer with
the poison byte `0xCD` and returns false (since every source byte is
`0xCD`). -/
theorem C4_witness :
    ((allocator_read (runOps [.alloc 4 .First]) 0 0 false (fun _ => 7) 4).2.1 1 =
      (allocator_init (runOps [.alloc 4 .First])).mem (56 + 0 + 1)) ∧
    ((allocator_read (runOps [.alloc 4 .First]) 0 0 false (fun _ => 7) 4).2.1 9 = 7) ∧
    ¬((allocator_read (runOps [.alloc 4 .First]) 0 0 false (fun _ => 7) 4).2.2 = true) := by
  have h := C4_read_valid_range (runOps [.alloc 4 .First]) 0 0 4 (fun _ => 7)
    { id := 0, addr := 0, start := 56, size := 16, requested_size := 4,
      free := false, cacheable := true, cache_hits := 0 }
    (by decide) (by decide) (by decide) (by decide) (by decide) (by decide)
  refine ⟨h.1 1 (by decide), h.2.1 9 (by decide), ?_⟩
  intro htrue
  have := (h.2.2.mp htrue) 0 (by decide)
  exact this.1 (by decide)

/-! ### Block-list invariant plumbing (towards C1, C7, C9) -/

theorem contigSeg_le (l : List BlockHeader) : ∀ a z, contigSeg a l z → a ≤ z := by
  induction l with
  | nil => intro a z h; exact Nat.le_of_eq h
  | cons b rest ih =>
    intro a z h
    obtain ⟨ha, -, hrest⟩ := h
    have := ih _ _ hrest
    omega

theorem contigSeg_bounds (l : List BlockHeader) : ∀ a z, contigSeg a l z →
    ∀ b ∈ l, a ≤ b.addr ∧ b.addr + HEADER_SIZE + b.size ≤ z ∧
      b.start = b.addr + HEADER_SIZE := by
  induction l with
  | nil => intro a z _ b hb; simp at hb
  | cons c rest ih =>
    intro a z h b hb
    obtain ⟨ha, hst, hrest⟩ := h
    rcases List.mem_cons.mp hb with rfl | hb
    · exact ⟨Nat.le_of_eq ha.symm, by have := contigSeg_le rest _ _ hrest; omega, hst⟩
    · have := ih _ _ hrest b hb
      exact ⟨by omega, this.2.1, this.2.2⟩

theorem contigSeg_append (l1 : List BlockHeader) : ∀ (l2 : List BlockHeader) a z,
    contigSeg a (l1 ++ l2) z ↔ ∃ m, contigSeg a l1 m ∧ contigSeg m l2 z := by
  induction l1 with
  | nil =>
    intro l2 a z
    constructor
    · intro h; exact ⟨a, rfl, h⟩
    · rintro ⟨m, hm, h⟩
      obtain rfl := hm
      exact h
  | cons b rest ih =>
    intro l2 a z
    constructor
    · rintro ⟨ha, hst, h⟩
      obtain ⟨m, hm1, hm2⟩ := (ih l2 _ z).mp h
      exact ⟨m, ⟨ha, hst, hm1⟩, hm2⟩
    · rintro ⟨m, ⟨ha, hst, hm1⟩, hm2⟩
      exact ⟨ha, hst, (ih l2 _ z).mpr ⟨m, hm1, hm2⟩⟩

theorem update_block_decomp (id : Int) (f : BlockHeader → BlockHeader) :
    ∀ blocks : List BlockHeader,
    (update_block_by_id id f blocks = blocks ∧ find_block_by_id blocks id = none) ∨
    (∃ pre b post, blocks = pre ++ b :: post ∧ b.free = false ∧ b.id = id ∧
      (∀ c ∈ pre, ¬(c.free = false ∧ c.id = id)) ∧
      update_block_by_id id f blocks = pre ++ f b :: post ∧
      find_block_by_id blocks id = some b) := by
  intro blocks
  induction blocks with
  | nil => exact Or.inl ⟨rfl, rfl⟩
  | cons hd rest ih =>
    by_cases hc : hd.free = false ∧ hd.id = id
    · refine Or.inr ⟨[], hd, rest, rfl, hc.1, hc.2, by simp, ?_, ?_⟩
      · rw [update_block_by_id, if_pos hc]
        rfl
      · rw [find_block_by_id, if_pos hc]
    · rcases ih with ⟨hup, hfind⟩ | ⟨pre, b, post, heq, hbf, hbid, hpre, hup, hfind⟩
      · refine Or.inl ⟨?_, ?_⟩
        · rw [update_block_by_id, if_neg hc, hup]
        · rw [find_block_by_id, if_neg hc, hfind]
      · refine Or.inr ⟨hd :: pre, b, post, by rw [heq]; rfl, hbf, hbid, ?_, ?_, ?_⟩
        · intro c hcm
          rcases List.mem_cons.mp hcm with rfl | hcm
          · exact hc
          · exact hpre c hcm
        · rw [update_block_by_id, if_neg hc, hup]
          rfl
        · rw [find_block_by_id, if_neg hc, hfind]

theorem replaceBlock_append (addr : Nat) (repl : List BlockHeader) :
    ∀ (pre : List BlockHeader) (b : BlockHeader) (post : List BlockHeader),
    b.addr = addr → (∀ c ∈ pre, c.addr ≠ addr) →
    replaceBlock addr repl (pre ++ b :: post) = pre ++ repl ++ post := by
  intro pre
  induction pre with
  | nil =>
    intro b post hb _
    rw [List.nil_append, replaceBlock, if_pos hb]
    rfl
  | cons c rest ih =>
    intro b post hb hpre
    rw [List.cons_append, replaceBlock, if_neg (hpre c (List.mem_cons_self _ _))]
    rw [ih b post hb (fun d hd => hpre d (List.mem_cons_of_mem _ hd))]
    rfl

theorem find_block_append (id : Int) : ∀ (l1 l2 : List BlockHeader),
    find_block_by_id (l1 ++ l2) id =
      match find_block_by_id l1 id with
      | some h => some h
      | none => find_block_by_id l2 id := by
  intro l1 l2
  induction l1 with
  | nil => rfl
  | cons b rest ih =>
    by_cases hc : b.free = false ∧ b.id = id
    · rw [List.cons_append, find_block_by_id, if_pos hc, find_block_by_id, if_pos hc]
    · rw [List.cons_append, find_block_by_id, if_neg hc, ih, find_block_by_id, if_neg hc]

theorem find_block_none (id : Int) : ∀ l : List BlockHeader,
    (∀ b ∈ l, ¬(b.free = false ∧ b.id = id)) → find_block_by_id l id = none := by
  intro l
  induction l with
  | nil => intro _; rfl
  | cons b rest ih =>
    intro h
    rw [find_block_by_id, if_neg (h b (List.mem_cons_self _ _))]
    exact ih (fun c hc => h c (List.mem_cons_of_mem _ hc))

theorem memset_inside (mem : Nat → Nat) (start n v a : Nat) (h1 : start ≤ a)
    (h2 : a < start + n) : memset mem start n v a = v := by
  rw [memset, if_pos ⟨h1, h2⟩]

theorem memset_outside (mem : Nat → Nat) (start n v a : Nat)
    (h : ¬(start ≤ a ∧ a < start + n)) : memset mem start n v a = mem a := by
  rw [memset, if_neg h]

theorem find_fit_mem_qual (blocks : List BlockHeader) (S : Nat) (strategy : FitStrategy)
    (b : BlockHeader) (h : find_fit blocks S strategy = some b) :
    b ∈ blocks ∧ b.free = true ∧ S ≤ b.size := by
  cases strategy with
  | First =>
    rw [find_fit_first_eq] at h
    rcases hfil : blocks.filter (fun c => fitQualifies S c) with _ | ⟨b0, t⟩
    · rw [hfil] at h
      exact Option.noConfusion h
    · rw [hfil] at h
      obtain rfl := (Option.some.inj h).symm
      have hbf : b ∈ blocks.filter (fun c => fitQualifies S c) := by
        rw [hfil]
        exact List.mem_cons_self _ _
      have hq := (fitQualifies_iff S b).mp (List.mem_filter.mp hbf).2
      exact ⟨(List.mem_filter.mp hbf).1, hq.1, hq.2⟩
  | Best =>
    rw [find_fit_best_eq] at h
    have hbf := minEarliest_mem _ _ h
    have hq := (fitQualifies_iff S b).mp (List.mem_filter.mp hbf).2
    exact ⟨(List.mem_filter.mp hbf).1, hq.1, hq.2⟩
  | Worst =>
    rw [find_fit_worst_eq] at h
    have hbf := maxEarliest_mem _ _ h
    have hq := (fitQualifies_iff S b).mp (List.mem_filter.mp hbf).2
    exact ⟨(List.mem_filter.mp hbf).1, hq.1, hq.2⟩

theorem coalesce_go_zero (l : List BlockHeader) : coalesce_go 0 l = l := by
  match l with
  | [] => rfl
  | [b] => rfl
  | b :: c :: rest => rfl

theorem coalesce_go_mem : ∀ (fuel : Nat) (l : List BlockHeader), ∀ x ∈ coalesce_go fuel l,
    x ∈ l ∨ x.free = true := by
  intro fuel
  induction fuel with
  | zero =>
    intro l x hx
    rw [coalesce_go_zero] at hx
    exact Or.inl hx
  | succ fuel ih =>
    intro l x hx
    rcases l with _ | ⟨b, _ | ⟨c, rest⟩⟩
    · simp [coalesce_go] at hx
    · simp only [coalesce_go] at hx
      exact Or.inl hx
    · simp only [coalesce_go] at hx
      split at hx
      · rename_i hcond
        rcases ih _ x hx with h | h
        · rcases List.mem_cons.mp h with rfl | h
          · simp only [Bool.and_eq_true] at hcond
            exact Or.inr hcond.1.1
          · exact Or.inl (by simp [h])
        · exact Or.inr h
      · rcases List.mem_cons.mp hx with rfl | hx2
        · exact Or.inl (List.mem_cons_self _ _)
        · rcases ih _ x hx2 with h | h
          · exact Or.inl (List.mem_cons_of_mem _ h)
          · exact Or.inr h

theorem coalesce_mem (l : List BlockHeader) : ∀ x ∈ coalesce_free_blocks l,
    x ∈ l ∨ x.free = true :=
  coalesce_go_mem l.length l

theorem coalesce_go_contig : ∀ (fuel : Nat) (l : List BlockHeader) (a z : Nat),
    contigSeg a l z → contigSeg a (coalesce_go fuel l) z := by
  intro fuel
  induction fuel with
  | zero =>
    intro l a z h
    rw [coalesce_go_zero]
    exact h
  | succ fuel ih =>
    intro l a z h
    rcases l with _ | ⟨b, _ | ⟨c, rest⟩⟩
    · exact h
    · exact h
    · obtain ⟨ha, hst, hca, hcst, hrest⟩ := h
      simp only [coalesce_go]
      split
      · rename_i hcond
        refine ih _ a z ⟨ha, hst, ?_⟩
        have heq : b.addr + HEADER_SIZE + (b.size + HEADER_SIZE + c.size) =
            c.addr + HEADER_SIZE + c.size := by
          simp only [Bool.and_eq_true, decide_eq_true_eq] at hcond
          omega
        rw [heq]
        exact hrest
      · exact ⟨ha, hst, ih _ _ z ⟨hca, hcst, hrest⟩⟩

theorem coalesce_contig (l : List BlockHeader) (a z : Nat) (h : contigSeg a l z) :
    contigSeg a (coalesce_free_blocks l) z :=
  coalesce_go_contig l.length l a z h

theorem coalesce_go_freeok : ∀ (fuel : Nat) (l : List BlockHeader),
    (∀ b ∈ l, b.free = true → b.id = -1 ∧ b.cacheable = false) →
    ∀ b ∈ coalesce_go fuel l, b.free = true → b.id = -1 ∧ b.cacheable = false := by
  intro fuel
  induction fuel with
  | zero =>
    intro l h
    rw [coalesce_go_zero]
    exact h
  | succ fuel ih =>
    intro l h
    rcases l with _ | ⟨b, _ | ⟨c, rest⟩⟩
    · exact h
    · exact h
    · simp only [coalesce_go]
      split
      · refine ih _ ?_
        intro x hx hxf
        rcases List.mem_cons.mp hx with rfl | hx
        · have := h b (List.mem_cons_self _ _) (by simpa using hxf)
          simpa using this
        · exact h x (by simp [hx]) hxf
      · intro x hx hxf
        rcases List.mem_cons.mp hx with rfl | hx
        · exact h x (List.mem_cons_self _ _) hxf
        · exact ih (c :: rest)
            (fun y hy hyf => h y (List.mem_cons_of_mem _ hy) hyf) x hx hxf

theorem coalesce_freeok (l : List BlockHeader)
    (h : ∀ b ∈ l, b.free = true → b.id = -1 ∧ b.cacheable = false) :
    ∀ b ∈ coalesce_free_blocks l, b.free = true → b.id = -1 ∧ b.cacheable = false :=
  coalesce_go_freeok l.length l h

theorem coalesce_go_live (P : BlockHeader → Prop) : ∀ (fuel : Nat) (l : List BlockHeader),
    (∀ b ∈ l, b.free = false → P b) →
    ∀ b ∈ coalesce_go fuel l, b.free = false → P b := by
  intro fuel
  induction fuel with
  | zero =>
    intro l h
    rw [coalesce_go_zero]
    exact h
  | succ fuel ih =>
    intro l h
    rcases l with _ | ⟨b, _ | ⟨c, rest⟩⟩
    · exact h
    · exact h
    · simp only [coalesce_go]
      split
      · rename_i hcond
        refine ih _ ?_
        intro x hx hxf
        rcases List.mem_cons.mp hx with rfl | hx
        · simp only [Bool.and_eq_true] at hcond
          exact absurd (by simpa using hxf) (by simp [hcond.1.1])
        · exact h x (by simp [hx]) hxf
      · intro x hx hxf
        rcases List.mem_cons.mp hx with rfl | hx
        · exact h x (List.mem_cons_self _ _) hxf
        · exact ih (c :: rest)
            (fun y hy hyf => h y (List.mem_cons_of_mem _ hy) hyf) x hx hxf

theorem coalesce_live (P : BlockHeader → Prop) (l : List BlockHeader)
    (h : ∀ b ∈ l, b.free = false → P b) :
    ∀ b ∈ coalesce_free_blocks l, b.free = false → P b :=
  coalesce_go_live P l.length l h

theorem coalesce_go_requested : ∀ (fuel : Nat) (l : List BlockHeader),
    (∀ b ∈ l, b.requested_size < U64) →
    ∀ b ∈ coalesce_go fuel l, b.requested_size < U64 := by
  intro fuel
  induction fuel with
  | zero =>
    intro l h
    rw [coalesce_go_zero]
    exact h
  | succ fuel ih =>
    intro l h
    rcases l with _ | ⟨b, _ | ⟨c, rest⟩⟩
    · exact h
    · exact h
    · simp only [coalesce_go]
      split
      · refine ih _ ?_
        intro x hx
        rcases List.mem_cons.mp hx with rfl | hx
        · show (0 : Nat) < U64
          norm_num [U64]
        · exact h x (by simp [hx])
      · intro x hx
        rcases List.mem_cons.mp hx with rfl | hx
        · exact h x (List.mem_cons_self _ _)
        · exact ih (c :: rest) (fun y hy => h y (List.mem_cons_of_mem _ hy)) x hx

theorem coalesce_requested (l : List BlockHeader)
    (h : ∀ b ∈ l, b.requested_size < U64) :
    ∀ b ∈ coalesce_free_blocks l, b.requested_size < U64 :=
  coalesce_go_requested l.length l h

theorem coalesce_go_pairwise : ∀ (fuel : Nat) (l : List BlockHeader),
    List.Pairwise liveNe l → List.Pairwise liveNe (coalesce_go fuel l) := by
  intro fuel
  induction fuel with
  | zero =>
    intro l h
    rw [coalesce_go_zero]
    exact h
  | succ fuel ih =>
    intro l h
    rcases l with _ | ⟨b, _ | ⟨c, rest⟩⟩
    · exact h
    · exact h
    · have hb := List.pairwise_cons.mp h
      have hc := List.pairwise_cons.mp hb.2
      simp only [coalesce_go]
      split
      · rename_i hcond
        simp only [Bool.and_eq_true] at hcond
        refine ih _ (List.pairwise_cons.mpr ⟨?_, hc.2⟩)
        intro x hx
        intro hmf
        exact absurd (by simpa using hmf) (by simp [hcond.1.1])
      · refine List.pairwise_cons.mpr ⟨?_, ih (c :: rest) hb.2⟩
        intro x hx
        rcases coalesce_go_mem _ _ x hx with hm | hm
        · exact hb.1 x hm
        · intro _ hxf
          exact absurd hm (by simp [hxf])

theorem coalesce_pairwise (l : List BlockHeader) (h : List.Pairwise liveNe l) :
    List.Pairwise liveNe (coalesce_free_blocks l) :=
  coalesce_go_pairwise l.length l h

theorem inv_of_eq (s1 s2 : AllocState) (hb : s1.blocks = s2.blocks)
    (hn : s1.next_id = s2.next_id) (h : AllocInv s2) : AllocInv s1 := by
  unfold AllocInv at h ⊢
  rw [hb, hn]
  exact h

theorem Inv_initState : AllocInv initState := by
  unfold AllocInv
  refine ⟨Or.inl rfl, ?_, ?_, ?_, ?_, ?_⟩ <;> simp [initState]

theorem Inv_init (s : AllocState) (h : AllocInv s) : AllocInv (allocator_init s) := by
  rw [allocator_init]
  split
  · obtain ⟨-, -, -, -, hE, -⟩ := h
    unfold AllocInv
    refine ⟨Or.inr (show contigSeg 0 [initBlock] HEAP_SIZE by decide), ?_, ?_, ?_, hE, ?_⟩
    · intro b hb hf
      simp only [List.mem_singleton] at hb
      subst hb
      exact ⟨by decide, by decide⟩
    · intro b hb hf
      simp only [List.mem_singleton] at hb
      subst hb
      exact absurd hf (by decide)
    · simp
    · intro b hb
      simp only [List.mem_singleton] at hb
      subst hb
      show (0 : Nat) < U64
      norm_num [U64]
  · exact h

theorem liveNe_of_free_left (a b : BlockHeader) (h : a.free = true) : liveNe a b := by
  intro h1
  rw [h] at h1
  exact absurd h1 (by simp)

theorem liveNe_of_free_right (a b : BlockHeader) (h : b.free = true) : liveNe a b := by
  intro _ h2
  rw [h] at h2
  exact absurd h2 (by simp)

theorem AllocInv_splice (s0 : AllocState) (pre post : List BlockHeader) (block : BlockHeader)
    (allocated : BlockHeader) (nbl : List BlockHeader)
    (h0 : AllocInv s0)
    (hsplit : s0.blocks = pre ++ block :: post)
    (hcontig : contigSeg block.addr (allocated :: nbl)
      (block.addr + HEADER_SIZE + block.size))
    (haf : allocated.free = false)
    (hai : allocated.id = s0.next_id)
    (har : allocated.requested_size < U64)
    (hnbl : ∀ x ∈ nbl, x.free = true ∧ x.id = -1 ∧ x.cacheable = false ∧
      x.requested_size = 0)
    (s2 : AllocState)
    (hs2b : s2.blocks = (pre ++ (allocated :: nbl)) ++ post)
    (hs2n : s2.next_id = s0.next_id + 1) :
    AllocInv s2 := by
  obtain ⟨hA, hB, hC, hD, hE, hF⟩ := h0
  have hA2 : contigSeg 0 s0.blocks HEAP_SIZE := by
    rcases hA with hA | hA
    · rw [hA] at hsplit
      exact absurd hsplit.symm (List.append_ne_nil_of_right_ne_nil _ (by simp))
    · exact hA
  rw [hsplit] at hA2 hB hC hD hF
  obtain ⟨m, hpre, hbpost⟩ := (contigSeg_append pre _ 0 HEAP_SIZE).mp hA2
  obtain ⟨hbaddr, hbstart, hpost⟩ := hbpost
  have hmemolds : ∀ x, x ∈ pre ∨ x ∈ post → x ∈ pre ++ block :: post := by
    intro x hx
    rcases hx with hx | hx
    · exact List.mem_append_left _ hx
    · exact List.mem_append_right _ (List.mem_cons_of_mem _ hx)
  have hmid : ∀ x ∈ allocated :: nbl, x = allocated ∨ x.free = true := by
    intro x hx
    rcases List.mem_cons.mp hx with rfl | hx
    · exact Or.inl rfl
    · exact Or.inr (hnbl x hx).1
  refine ⟨Or.inr ?_, ?_, ?_, ?_, by omega, ?_⟩
  · rw [hs2b]
    refine (contigSeg_append _ _ 0 HEAP_SIZE).mpr ⟨block.addr + HEADER_SIZE + block.size, ?_, ?_⟩
    · refine (contigSeg_append _ _ 0 _).mpr ⟨m, hpre, ?_⟩
      rw [← hbaddr]
      exact hcontig
    · exact hpost
  · intro b hb hf
    rw [hs2b] at hb
    simp only [List.mem_append, List.mem_cons] at hb
    rcases hb with (hb | rfl | hb) | hb
    · exact hB b (hmemolds b (Or.inl hb)) hf
    · exact absurd hf (by simp [haf])
    · exact ⟨(hnbl b hb).2.1, (hnbl b hb).2.2.1⟩
    · exact hB b (hmemolds b (Or.inr hb)) hf
  · intro b hb hf
    rw [hs2b] at hb
    rw [hs2n]
    simp only [List.mem_append, List.mem_cons] at hb
    rcases hb with (hb | rfl | hb) | hb
    · have := hC b (hmemolds b (Or.inl hb)) hf
      omega
    · rw [hai]
      omega
    · exact absurd hf (by simp [(hnbl b hb).1])
    · have := hC b (hmemolds b (Or.inr hb)) hf
      omega
  · rw [hs2b]
    rw [List.pairwise_append] at hD
    obtain ⟨hDpre, hDbp, hDcross⟩ := hD
    have hDpost := (List.pairwise_cons.mp hDbp).2
    have hlive_new : ∀ y, y ∈ pre ∨ y ∈ post → y.free = false → y.id ≠ allocated.id := by
      intro y hy hyf
      have := hC y (hmemolds y hy) hyf
      rw [hai]
      omega
    rw [List.pairwise_append]
    refine ⟨?_, hDpost, ?_⟩
    · rw [List.pairwise_append]
      refine ⟨hDpre, ?_, ?_⟩
      · refine List.pairwise_cons.mpr ⟨?_, ?_⟩
        · intro x hx
          exact liveNe_of_free_right _ _ (hnbl x hx).1
        · exact List.pairwise_of_forall_mem_list
            (fun a ha b _ => liveNe_of_free_left _ _ (hnbl a ha).1)
      · intro a ha x hx
        rcases hmid x hx with rfl | hxf
        · intro haf2 _
          exact hlive_new a (Or.inl ha) haf2
        · exact liveNe_of_free_right _ _ hxf
    · intro a ha b hb
      simp only [List.mem_append] at ha
      rcases ha with ha | ha
      · exact hDcross a ha b (List.mem_cons_of_mem _ hb)
      · rcases hmid a ha with rfl | haf2
        · intro _ hbf
          have := hlive_new b (Or.inr hb) hbf
          omega
        · exact liveNe_of_free_left _ _ haf2
  · intro b hb
    rw [hs2b] at hb
    simp only [List.mem_append, List.mem_cons] at hb
    rcases hb with (hb | rfl | hb) | hb
    · exact hF b (hmemolds b (Or.inl hb))
    · exact har
    · rw [(hnbl b hb).2.2.2]
      norm_num [U64]
    · exact hF b (hmemolds b (Or.inr hb))

theorem malloc_none_fit (s : AllocState) (size : Nat) (strategy : FitStrategy)
    (hsz : ¬(size = 0))
    (hf : find_fit (allocator_init s).blocks (align_size size) strategy = none) :
    allocator_malloc s size strategy =
      ({ allocator_init s with
          alloc_requests := (allocator_init s).alloc_requests + 1,
          alloc_fail := (allocator_init s).alloc_fail + 1 }, -1) := by
  rw [allocator_malloc]
  simp only [if_neg hsz, hf]

theorem malloc_some_fit (s : AllocState) (size : Nat) (strategy : FitStrategy)
    (block : BlockHeader) (hsz : ¬(size = 0))
    (hf : find_fit (allocator_init s).blocks (align_size size) strategy = some block) :
    allocator_malloc s size strategy =
      (let s0 := allocator_init s
       let sp := split_block_if_needed block (align_size size)
       let allocated : BlockHeader :=
         { sp.1 with
           free := false
           id := s0.next_id
           cacheable := true
           cache_hits := 0
           start := sp.1.addr + HEADER_SIZE
           requested_size := size }
       let s2 : AllocState :=
         { s0 with
           blocks := replaceBlock block.addr (allocated :: sp.2.toList) s0.blocks
           mem := memset s0.mem allocated.start allocated.size PATTERN_UNINITIALIZED
           next_id := s0.next_id + 1
           alloc_requests := s0.alloc_requests + 1
           alloc_success := s0.alloc_success + 1 }
       if (allocated.start : Int) < 0 ∨ (HEAP_SIZE : Int) ≤ (allocated.start : Int) then (s2, -1)
       else (s2, allocated.id)) := by
  rw [allocator_malloc]
  simp only [if_neg hsz, hf]

theorem blocks_decomp_fresh (s0 : AllocState) (h0 : AllocInv s0) (block : BlockHeader)
    (hmem : block ∈ s0.blocks) :
    ∃ pre post, s0.blocks = pre ++ block :: post ∧ ∀ c ∈ pre, c.addr ≠ block.addr := by
  obtain ⟨pre, post, hsplit⟩ := List.append_of_mem hmem
  refine ⟨pre, post, hsplit, ?_⟩
  have hA2 : contigSeg 0 s0.blocks HEAP_SIZE := by
    rcases h0.1 with hA | hA
    · rw [hA] at hsplit
      exact absurd hsplit.symm (List.append_ne_nil_of_right_ne_nil _ (by simp))
    · exact hA
  rw [hsplit] at hA2
  obtain ⟨m, hpre, hbpost⟩ := (contigSeg_append pre _ 0 HEAP_SIZE).mp hA2
  intro c hc
  have hcb := contigSeg_bounds pre 0 m hpre c hc
  have : block.addr = m := hbpost.1
  have hH : 0 < HEADER_SIZE := by norm_num [HEADER_SIZE]
  omega

theorem if_pair_fst (c : Prop) [Decidable c] (x : AllocState) (i j : Int) :
    ((if c then (x, i) else (x, j)) : AllocState × Int).1 = x := by
  split <;> rfl

theorem Inv_malloc (s : AllocState) (size : Nat) (strategy : FitStrategy)
    (hsize : size < U64) (h : AllocInv s) :
    AllocInv (allocator_malloc s size strategy).1 := by
  have h0 := Inv_init s h
  by_cases hsz : size = 0
  · rw [allocator_malloc]
    simp only [if_pos hsz]
    exact h0
  · rcases hff : find_fit (allocator_init s).blocks (align_size size) strategy with _ | block
    · rw [malloc_none_fit s size strategy hsz hff]
      exact inv_of_eq _ _ rfl rfl h0
    · rw [malloc_some_fit s size strategy block hsz hff]
      have hbq := find_fit_mem_qual _ _ _ _ hff
      obtain ⟨pre, post, hsplit, hfresh⟩ := blocks_decomp_fresh _ h0 block hbq.1
      by_cases hrem : block.size - align_size size ≤ HEADER_SIZE + 8
      · have hspeq : split_block_if_needed block (align_size size) = (block, none) := by
          rw [split_block_if_needed, if_pos hrem]
        simp only [hspeq, Option.toList_none, if_pair_fst]
        refine AllocInv_splice (allocator_init s) pre post block
          { id := (allocator_init s).next_id, addr := block.addr,
            start := block.addr + HEADER_SIZE, size := block.size,
            requested_size := size, free := false, cacheable := true, cache_hits := 0 }
          [] h0 hsplit ⟨rfl, rfl, rfl⟩ rfl rfl hsize (by simp) _ ?_ rfl
        show replaceBlock block.addr _ (allocator_init s).blocks = _
        rw [hsplit]
        exact replaceBlock_append block.addr _ pre block post rfl hfresh
      · have hspeq : split_block_if_needed block (align_size size) =
            ({ block with size := align_size size },
             some { id := -1
                    addr := block.addr + HEADER_SIZE + align_size size
                    start := block.addr + HEADER_SIZE + align_size size + HEADER_SIZE
                    size := block.size - align_size size - HEADER_SIZE
                    requested_size := 0
                    free := true
                    cacheable := false
                    cache_hits := 0 }) := by
          rw [split_block_if_needed, if_neg hrem]
        simp only [hspeq, Option.toList_some, if_pair_fst]
        refine AllocInv_splice (allocator_init s) pre post block
          { id := (allocator_init s).next_id, addr := block.addr,
            start := block.addr + HEADER_SIZE, size := align_size size,
            requested_size := size, free := false, cacheable := true, cache_hits := 0 }
          [{ id := -1
             addr := block.addr + HEADER_SIZE + align_size size
             start := block.addr + HEADER_SIZE + align_size size + HEADER_SIZE
             size := block.size - align_size size - HEADER_SIZE
             requested_size := 0
             free := true
             cacheable := false
             cache_hits := 0 }]
          h0 hsplit ⟨rfl, rfl, rfl, rfl, ?_⟩ rfl rfl hsize
          (by intro x hx
              simp only [List.mem_singleton] at hx
              subst hx
              exact ⟨rfl, rfl, rfl, rfl⟩) _ ?_ rfl
        · show block.addr + HEADER_SIZE + align_size size + HEADER_SIZE +
            (block.size - align_size size - HEADER_SIZE) = block.addr + HEADER_SIZE + block.size
          have hq := hbq.2.2
          omega
        · show replaceBlock block.addr _ (allocator_init s).blocks = _
          rw [hsplit]
          exact replaceBlock_append block.addr _ pre block post rfl hfresh

theorem AllocInv_update_light (s0 : AllocState) (id : Int) (f : BlockHeader → BlockHeader)
    (hf : ∀ b, (f b).addr = b.addr ∧ (f b).start = b.start ∧ (f b).size = b.size ∧
      (f b).free = b.free ∧ (f b).id = b.id ∧ (f b).requested_size = b.requested_size)
    (h0 : AllocInv s0) (s2 : AllocState)
    (hs2b : s2.blocks = update_block_by_id id f s0.blocks)
    (hs2n : s2.next_id = s0.next_id) : AllocInv s2 := by
  rcases update_block_decomp id f s0.blocks with ⟨hup, -⟩ | ⟨pre, b, post, hsplit, hbf, -, -, hup, -⟩
  · rw [hup] at hs2b
    exact inv_of_eq _ _ hs2b hs2n h0
  · rw [hup] at hs2b
    obtain ⟨hA, hB, hC, hD, hE, hF⟩ := h0
    have hA2 : contigSeg 0 s0.blocks HEAP_SIZE := by
      rcases hA with hA | hA
      · rw [hA] at hsplit
        exact absurd hsplit.symm (List.append_ne_nil_of_right_ne_nil _ (by simp))
      · exact hA
    rw [hsplit] at hA2 hB hC hD hF
    have hlNe1 : ∀ x, liveNe x (f b) ↔ liveNe x b := by
      intro x
      unfold liveNe
      rw [(hf b).2.2.2.1, (hf b).2.2.2.2.1]
    have hlNe2 : ∀ x, liveNe (f b) x ↔ liveNe b x := by
      intro x
      unfold liveNe
      rw [(hf b).2.2.2.1, (hf b).2.2.2.2.1]
    refine ⟨Or.inr ?_, ?_, ?_, ?_, by omega, ?_⟩
    · rw [hs2b]
      obtain ⟨m, hpre, hbaddr, hbstart, hpost⟩ := (contigSeg_append pre _ 0 HEAP_SIZE).mp hA2
      refine (contigSeg_append pre _ 0 HEAP_SIZE).mpr ⟨m, hpre, ?_, ?_, ?_⟩
      · rw [(hf b).1, hbaddr]
      · rw [(hf b).2.1, (hf b).1, hbstart]
      · rw [(hf b).1, (hf b).2.2.1]
        exact hpost
    · intro x hx hxf
      rw [hs2b] at hx
      simp only [List.mem_append, List.mem_cons] at hx
      rcases hx with hx | rfl | hx
      · exact hB x (List.mem_append_left _ hx) hxf
      · rw [(hf b).2.2.2.1, hbf] at hxf
        exact absurd hxf (by simp)
      · exact hB x (List.mem_append_right _ (List.mem_cons_of_mem _ hx)) hxf
    · intro x hx hxf
      rw [hs2b] at hx
      rw [hs2n]
      simp only [List.mem_append, List.mem_cons] at hx
      rcases hx with hx | rfl | hx
      · exact hC x (List.mem_append_left _ hx) hxf
      · rw [(hf b).2.2.2.1] at hxf
        rw [(hf b).2.2.2.2.1]
        exact hC b (List.mem_append_right _ (List.mem_cons_self _ _)) hxf
      · exact hC x (List.mem_append_right _ (List.mem_cons_of_mem _ hx)) hxf
    · rw [hs2b]
      rw [List.pairwise_append] at hD ⊢
      obtain ⟨hDpre, hDbp, hDcross⟩ := hD
      rw [List.pairwise_cons] at hDbp ⊢
      refine ⟨hDpre, ⟨?_, hDbp.2⟩, ?_⟩
      · intro x hx
        exact (hlNe2 x).mpr (hDbp.1 x hx)
      · intro a ha x hx
        rcases List.mem_cons.mp hx with rfl | hx
        · exact (hlNe1 a).mpr (hDcross a ha b (List.mem_cons_self _ _))
        · exact hDcross a ha x (List.mem_cons_of_mem _ hx)
    · intro x hx
      rw [hs2b] at hx
      simp only [List.mem_append, List.mem_cons] at hx
      rcases hx with hx | rfl | hx
      · exact hF x (List.mem_append_left _ hx)
      · rw [(hf b).2.2.2.2.2]
        exact hF b (List.mem_append_right _ (List.mem_cons_self _ _))
      · exact hF x (List.mem_append_right _ (List.mem_cons_of_mem _ hx))

theorem AllocInv_free_core (s0 : AllocState) (pre post : List BlockHeader) (b fb : BlockHeader)
    (h0 : AllocInv s0)
    (hsplit : s0.blocks = pre ++ b :: post)
    (hfb : fb.addr = b.addr ∧ fb.start = b.start ∧ fb.size = b.size ∧ fb.free = true ∧
      fb.id = -1 ∧ fb.cacheable = false ∧ fb.requested_size = b.requested_size)
    (s2 : AllocState)
    (hs2b : s2.blocks = coalesce_free_blocks (pre ++ fb :: post))
    (hs2n : s2.next_id = s0.next_id) : AllocInv s2 := by
  obtain ⟨hA, hB, hC, hD, hE, hF⟩ := h0
  have hA2 : contigSeg 0 s0.blocks HEAP_SIZE := by
    rcases hA with hA | hA
    · rw [hA] at hsplit
      exact absurd hsplit.symm (List.append_ne_nil_of_right_ne_nil _ (by simp))
    · exact hA
  rw [hsplit] at hA2 hB hC hD hF
  obtain ⟨m, hpre, hbaddr, hbstart, hpost⟩ := (contigSeg_append pre _ 0 HEAP_SIZE).mp hA2
  have hl1A : contigSeg 0 (pre ++ fb :: post) HEAP_SIZE := by
    refine (contigSeg_append pre _ 0 HEAP_SIZE).mpr ⟨m, hpre, ?_, ?_, ?_⟩
    · rw [hfb.1, hbaddr]
    · rw [hfb.2.1, hfb.1, hbstart]
    · rw [hfb.1, hfb.2.2.1]
      exact hpost
  have hl1B : ∀ x ∈ pre ++ fb :: post, x.free = true → x.id = -1 ∧ x.cacheable = false := by
    intro x hx hxf
    simp only [List.mem_append, List.mem_cons] at hx
    rcases hx with hx | rfl | hx
    · exact hB x (List.mem_append_left _ hx) hxf
    · exact ⟨hfb.2.2.2.2.1, hfb.2.2.2.2.2.1⟩
    · exact hB x (List.mem_append_right _ (List.mem_cons_of_mem _ hx)) hxf
  have hl1C : ∀ x ∈ pre ++ fb :: post, x.free = false →
      0 ≤ x.id ∧ x.id < s0.next_id := by
    intro x hx hxf
    simp only [List.mem_append, List.mem_cons] at hx
    rcases hx with hx | rfl | hx
    · exact hC x (List.mem_append_left _ hx) hxf
    · rw [hfb.2.2.2.1] at hxf
      exact absurd hxf (by simp)
    · exact hC x (List.mem_append_right _ (List.mem_cons_of_mem _ hx)) hxf
  have hl1D : List.Pairwise liveNe (pre ++ fb :: post) := by
    rw [List.pairwise_append] at hD ⊢
    obtain ⟨hDpre, hDbp, hDcross⟩ := hD
    rw [List.pairwise_cons] at hDbp ⊢
    refine ⟨hDpre, ⟨?_, hDbp.2⟩, ?_⟩
    · intro x hx
      exact liveNe_of_free_left _ _ hfb.2.2.2.1
    · intro a ha x hx
      rcases List.mem_cons.mp hx with rfl | hx
      · exact liveNe_of_free_right _ _ hfb.2.2.2.1
      · exact hDcross a ha x (List.mem_cons_of_mem _ hx)
  have hl1F : ∀ x ∈ pre ++ fb :: post, x.requested_size < U64 := by
    intro x hx
    simp only [List.mem_append, List.mem_cons] at hx
    rcases hx with hx | rfl | hx
    · exact hF x (List.mem_append_left _ hx)
    · rw [hfb.2.2.2.2.2.2]
      exact hF b (List.mem_append_right _ (List.mem_cons_self _ _))
    · exact hF x (List.mem_append_right _ (List.mem_cons_of_mem _ hx))
  rw [AllocInv, hs2b, hs2n]
  exact ⟨Or.inr (coalesce_contig _ _ _ hl1A), coalesce_freeok _ hl1B,
    coalesce_live _ _ hl1C, coalesce_pairwise _ hl1D, hE, coalesce_requested _ hl1F⟩

theorem Inv_free (s : AllocState) (id : Int) (h : AllocInv s) :
    AllocInv (allocator_free s id) := by
  have h0 := Inv_init s h
  rw [allocator_free]
  split
  · exact h0
  · rcases hd : find_block_by_id (allocator_init s).blocks id with _ | hdr
    · simp only [hd]
      exact h0
    · simp only [hd]
      rcases update_block_decomp id
          (fun b => { b with free := true, id := -1, cacheable := false, cache_hits := 0 })
          (allocator_init s).blocks with ⟨-, hfind⟩ | ⟨pre, b, post, hsplit, hbf, -, -, hup, -⟩
      · rw [hfind] at hd
        exact Option.noConfusion hd
      · refine AllocInv_free_core (allocator_init s) pre post b
          { b with free := true, id := -1, cacheable := false, cache_hits := 0 }
          h0 hsplit ⟨rfl, rfl, rfl, rfl, rfl, rfl, rfl⟩ _ ?_ rfl
        show coalesce_free_blocks (update_block_by_id id _ (allocator_init s).blocks) = _
        rw [hup]

theorem Inv_set_cacheable (s : AllocState) (id : Int) (flag : Bool) (h : AllocInv s) :
    AllocInv (allocator_set_block_cacheable s id flag) := by
  have h0 := Inv_init s h
  rw [allocator_set_block_cacheable]
  split
  · exact h0
  · rcases hd : find_block_by_id (allocator_init s).blocks id with _ | hdr
    · simp only [hd]
      exact h0
    · simp only [hd]
      exact AllocInv_update_light (allocator_init s) id
        (fun b => { b with cacheable := flag })
        (fun b => ⟨rfl, rfl, rfl, rfl, rfl, rfl⟩) h0 _ rfl rfl

theorem Inv_access (s : AllocState) (id : Int) (iw : Bool) (h : AllocInv s) :
    AllocInv (allocator_access s id iw) := by
  have h0 := Inv_init s h
  rw [allocator_access]
  split
  · exact h0
  · rcases hd : find_block_by_id (allocator_init s).blocks id with _ | hdr
    · simp only [hd]
      exact h0
    · simp only [hd]
      split
      · exact h0
      · exact AllocInv_update_light (allocator_init s) id
          (fun b => { b with cache_hits := b.cache_hits + 1 })
          (fun b => ⟨rfl, rfl, rfl, rfl, rfl, rfl⟩) h0 _ rfl rfl

theorem allocator_read_shape (s : AllocState) (id : Int) (offset : Nat) (dn : Bool)
    (dst : Nat → Nat) (n : Nat) :
    (allocator_read s id offset dn dst n).1.blocks = (allocator_init s).blocks ∧
    (allocator_read s id offset dn dst n).1.next_id = (allocator_init s).next_id := by
  rw [allocator_read]
  split
  · exact ⟨rfl, rfl⟩
  · split
    · exact ⟨rfl, rfl⟩
    · split
      · exact ⟨rfl, rfl⟩
      · split
        · exact ⟨rfl, rfl⟩
        · exact ⟨rfl, rfl⟩

theorem allocator_write_shape (s : AllocState) (id : Int) (offset : Nat) (sn : Bool)
    (src : Nat → Nat) (n : Nat) :
    (allocator_write s id offset sn src n).1.blocks = (allocator_init s).blocks ∧
    (allocator_write s id offset sn src n).1.next_id = (allocator_init s).next_id := by
  rw [allocator_write]
  split
  · exact ⟨rfl, rfl⟩
  · split
    · exact ⟨rfl, rfl⟩
    · split
      · exact ⟨rfl, rfl⟩
      · split
        · exact ⟨rfl, rfl⟩
        · exact ⟨rfl, rfl⟩

theorem Inv_step (s : AllocState) (op : AllocOp) (h : AllocInv s) :
    AllocInv (allocStep s op) := by
  cases op with
  | alloc size strategy =>
    exact Inv_malloc s (size % U64) strategy (Nat.mod_lt _ (by norm_num [U64])) h
  | free id => exact Inv_free s id h
  | read id offset dn dst n =>
    have hs := allocator_read_shape s id (offset % U64) dn dst (n % U64)
    exact inv_of_eq _ _ hs.1 hs.2 (Inv_init s h)
  | write id offset sn src n =>
    have hs := allocator_write_shape s id (offset % U64) sn src (n % U64)
    exact inv_of_eq _ _ hs.1 hs.2 (Inv_init s h)
  | access id iw => exact Inv_access s id iw h
  | set_cacheable id flag => exact Inv_set_cacheable s id flag h

theorem Inv_run (ops : List AllocOp) : AllocInv (runOps ops) := by
  rw [runOps]
  have : ∀ (l : List AllocOp) (s : AllocState), AllocInv s → AllocInv (l.foldl allocStep s) := by
    intro l
    induction l with
    | nil => intro s hs; exact hs
    | cons op rest ih =>
      intro s hs
      exact ih _ (Inv_step s op hs)
  exact this ops initState Inv_initState

/-- C1 counterexample: `allocator_free` clears `free`, `id`, `cacheable` and
the hit counter but leaves `requested_size` untouched; only coalescing
resets it.  After `allocate(100); allocate(200); free(0)` the freed block
cannot merge (its successor is still allocated), so a free block with
`requested_size = 100 ≠ 0` remains, refuting the claimed invariant. -/
theorem C1_counterexample :
    ∃ b ∈ (runOps [.alloc 100 .First, .alloc 200 .First, .free 0]).blocks,
      b.free = true ∧ b.requested_size ≠ 0 := by
  decide

/-- C1 (amended): after every sequence of façade operations (allocate, free,
read, write, access, set_cacheable), every block whose free flag is true has
`id = -1` and `cacheable = false`; `requested_size` is 0 for free blocks
produced by initialization, splitting or coalescing, but a block freed by
`free(id)` that does not merge retains its old `requested_size`. -/
theorem C1_free_blocks_amended (ops : List AllocOp) :
    ∀ b ∈ (runOps ops).blocks, b.free = true → b.id = -1 ∧ b.cacheable = false :=
  fun b hb hf => (Inv_run ops).2.1 b hb hf

/-- Witness for C1 (amended): after `allocate(1); free(0)` the heap
coalesces back to the single spanning free block, which carries the sentinel
id and is not cacheable. -/
theorem C1_amended_witness :
    initBlock ∈ (runOps [.alloc 1 .First, .free 0]).blocks ∧
    initBlock.free = true ∧
    (initBlock.id = -1 ∧ initBlock.cacheable = false) :=
  ⟨by decide, by decide,
    C1_free_blocks_amended [.alloc 1 .First, .free 0] initBlock (by decide) (by decide)⟩

theorem init_next_id (s : AllocState) : (allocator_init s).next_id = s.next_id := by
  rw [allocator_init]
  split <;> rfl

theorem align_size_facts (size : Nat) (hsz : size ≠ 0) (hsz2 : size + MAX_ALIGN ≤ U64) :
    size ≤ align_size size ∧ MAX_ALIGN ≤ align_size size ∧ align_size size < U64 := by
  have hma : MAX_ALIGN = 16 := rfl
  rw [hma] at hsz2
  have hmod : (size + MAX_ALIGN - 1) % U64 = size + MAX_ALIGN - 1 :=
    Nat.mod_eq_of_lt (by rw [hma]; omega)
  have halign : align_size size = (size + 16 - 1) / 16 * 16 := by
    rw [align_size, hmod, hma]
  rw [hma, halign]
  omega

theorem malloc_success_spec (s : AllocState) (size : Nat) (strategy : FitStrategy)
    (block : BlockHeader)
    (hinv : AllocInv s)
    (hsz : size ≠ 0)
    (hsz2 : size + MAX_ALIGN ≤ U64)
    (hff : find_fit (allocator_init s).blocks (align_size size) strategy = some block) :
    (allocator_malloc s size strategy).2 = s.next_id ∧
    (allocator_malloc s size strategy).1.next_id = s.next_id + 1 ∧
    AllocInv (allocator_malloc s size strategy).1 ∧
    ∃ hdr, find_block_by_id (allocator_malloc s size strategy).1.blocks s.next_id = some hdr ∧
      hdr.requested_size = size ∧ size ≤ hdr.size ∧
      hdr.start = hdr.addr + HEADER_SIZE ∧ hdr.start + hdr.size ≤ HEAP_SIZE ∧
      ∀ i < hdr.size, (allocator_malloc s size strategy).1.mem (hdr.start + i) =
        PATTERN_UNINITIALIZED := by
  have h0 := Inv_init s hinv
  have hal := align_size_facts size hsz hsz2
  have hma16 : (16 : Nat) ≤ align_size size := hal.2.1
  have hinvres : AllocInv (allocator_malloc s size strategy).1 :=
    Inv_malloc s size strategy (by have := hal.2.2; omega) hinv
  have hbq := find_fit_mem_qual _ _ _ _ hff
  obtain ⟨pre, post, hsplit, hfresh⟩ := blocks_decomp_fresh _ h0 block hbq.1
  have hA2 : contigSeg 0 (allocator_init s).blocks HEAP_SIZE := by
    rcases h0.1 with hA | hA
    · rw [hA] at hsplit
      exact absurd hsplit.symm (List.append_ne_nil_of_right_ne_nil _ (by simp))
    · exact hA
  have hbound := contigSeg_bounds _ 0 HEAP_SIZE hA2 block hbq.1
  have hstartlt : block.addr + HEADER_SIZE < HEAP_SIZE := by
    have hq := hbq.2.2
    have h1 := hbound.2.1
    omega
  have hCpre : ∀ b ∈ pre, ¬(b.free = false ∧ b.id = s.next_id) := by
    intro b hb ⟨hbf, hbid⟩
    have := h0.2.2.1 b (by rw [hsplit]; exact List.mem_append_left _ hb) hbf
    rw [init_next_id] at this
    omega
  by_cases hrem : block.size - align_size size ≤ HEADER_SIZE + 8
  · have hspeq : split_block_if_needed block (align_size size) = (block, none) := by
      rw [split_block_if_needed, if_pos hrem]
    have hm : allocator_malloc s size strategy =
        ({ allocator_init s with
            blocks := replaceBlock block.addr
              [{ id := (allocator_init s).next_id, addr := block.addr,
                 start := block.addr + HEADER_SIZE, size := block.size,
                 requested_size := size, free := false, cacheable := true, cache_hits := 0 }]
              (allocator_init s).blocks
            mem := memset (allocator_init s).mem (block.addr + HEADER_SIZE) block.size
              PATTERN_UNINITIALIZED
            next_id := (allocator_init s).next_id + 1
            alloc_requests := (allocator_init s).alloc_requests + 1
            alloc_success := (allocator_init s).alloc_success + 1 },
         (allocator_init s).next_id) := by
      rw [malloc_some_fit s size strategy block hsz hff]
      simp only [hspeq, Option.toList]
      rw [if_neg (by push_neg; exact ⟨Int.natCast_nonneg _, by exact_mod_cast hstartlt⟩)]
    have hrepl : replaceBlock block.addr
        [{ id := (allocator_init s).next_id, addr := block.addr,
           start := block.addr + HEADER_SIZE, size := block.size,
           requested_size := size, free := false, cacheable := true, cache_hits := 0 }]
        (allocator_init s).blocks =
        (pre ++ [{ id := (allocator_init s).next_id, addr := block.addr,
                   start := block.addr + HEADER_SIZE, size := block.size,
                   requested_size := size, free := false, cacheable := true,
                   cache_hits := 0 }]) ++
        post := by
      rw [hsplit]
      exact replaceBlock_append block.addr _ pre block post rfl hfresh
    refine ⟨?_, ?_, hinvres, ?_⟩
    · rw [hm]
      exact init_next_id s
    · rw [hm]
      show (allocator_init s).next_id + 1 = s.next_id + 1
      rw [init_next_id]
    refine ⟨{ id := (allocator_init s).next_id, addr := block.addr,
              start := block.addr + HEADER_SIZE, size := block.size,
              requested_size := size, free := false, cacheable := true, cache_hits := 0 },
        ?_, rfl, ?_, rfl, ?_, ?_⟩
    · rw [hm]
      show find_block_by_id (replaceBlock block.addr
        [{ id := (allocator_init s).next_id, addr := block.addr,
           start := block.addr + HEADER_SIZE, size := block.size,
           requested_size := size, free := false, cacheable := true, cache_hits := 0 }]
        (allocator_init s).blocks) s.next_id = _
      rw [hrepl, List.append_assoc, find_block_append]
      simp only [find_block_none s.next_id pre hCpre]
      rw [List.cons_append, find_block_by_id, if_pos ⟨rfl, init_next_id s⟩]
    · show size ≤ block.size
      have h1 := hbq.2.2
      have h2 := hal.1
      omega
    · show block.addr + HEADER_SIZE + block.size ≤ HEAP_SIZE
      exact hbound.2.1
    · intro i hi
      have hi' : i < block.size := hi
      rw [hm]
      show memset (allocator_init s).mem (block.addr + HEADER_SIZE) block.size
        PATTERN_UNINITIALIZED (block.addr + HEADER_SIZE + i) = PATTERN_UNINITIALIZED
      exact memset_inside _ _ _ _ _ (by omega) (by omega)
  · have hspeq : split_block_if_needed block (align_size size) =
        ({ block with size := align_size size },
         some { id := -1, addr := block.addr + HEADER_SIZE + align_size size,
                start := block.addr + HEADER_SIZE + align_size size + HEADER_SIZE,
                size := block.size - align_size size - HEADER_SIZE,
                requested_size := 0, free := true, cacheable := false, cache_hits := 0 }) := by
      rw [split_block_if_needed, if_neg hrem]
    have hm : allocator_malloc s size strategy =
        ({ allocator_init s with
            blocks := replaceBlock block.addr
              [{ id := (allocator_init s).next_id, addr := block.addr,
                 start := block.addr + HEADER_SIZE, size := align_size size,
                 requested_size := size, free := false, cacheable := true, cache_hits := 0 },
               { id := -1, addr := block.addr + HEADER_SIZE + align_size size,
                 start := block.addr + HEADER_SIZE + align_size size + HEADER_SIZE,
                 size := block.size - align_size size - HEADER_SIZE,
                 requested_size := 0, free := true, cacheable := false, cache_hits := 0 }]
              (allocator_init s).blocks
            mem := memset (allocator_init s).mem (block.addr + HEADER_SIZE) (align_size size)
              PATTERN_UNINITIALIZED
            next_id := (allocator_init s).next_id + 1
            alloc_requests := (allocator_init s).alloc_requests + 1
            alloc_success := (allocator_init s).alloc_success + 1 },
         (allocator_init s).next_id) := by
      rw [malloc_some_fit s size strategy block hsz hff]
      simp only [hspeq, Option.toList]
      rw [if_neg (by push_neg; exact ⟨Int.natCast_nonneg _, by exact_mod_cast hstartlt⟩)]
    have hrepl : replaceBlock block.addr
        [{ id := (allocator_init s).next_id, addr := block.addr,
           start := block.addr + HEADER_SIZE, size := align_size size,
           requested_size := size, free := false, cacheable := true, cache_hits := 0 },
         { id := -1, addr := block.addr + HEADER_SIZE + align_size size,
           start := block.addr + HEADER_SIZE + align_size size + HEADER_SIZE,
           size := block.size - align_size size - HEADER_SIZE,
           requested_size := 0, free := true, cacheable := false, cache_hits := 0 }]
        (allocator_init s).blocks =
        (pre ++ [{ id := (allocator_init s).next_id, addr := block.addr,
                   start := block.addr + HEADER_SIZE, size := align_size size,
                   requested_size := size, free := false, cacheable := true,
                   cache_hits := 0 },
                 { id := -1, addr := block.addr + HEADER_SIZE + align_size size,
                   start := block.addr + HEADER_SIZE + align_size size + HEADER_SIZE,
                   size := block.size - align_size size - HEADER_SIZE,
                   requested_size := 0, free := true, cacheable := false,
                   cache_hits := 0 }]) ++
        post := by
      rw [hsplit]
      exact replaceBlock_append block.addr _ pre block post rfl hfresh
    refine ⟨?_, ?_, hinvres, ?_⟩
    · rw [hm]
      exact init_next_id s
    · rw [hm]
      show (allocator_init s).next_id + 1 = s.next_id + 1
      rw [init_next_id]
    refine ⟨{ id := (allocator_init s).next_id, addr := block.addr,
              start := block.addr + HEADER_SIZE, size := align_size size,
              requested_size := size, free := false, cacheable := true, cache_hits := 0 },
        ?_, rfl, hal.1, rfl, ?_, ?_⟩
    · rw [hm]
      show find_block_by_id (replaceBlock block.addr
        [{ id := (allocator_init s).next_id, addr := block.addr,
           start := block.addr + HEADER_SIZE, size := align_size size,
           requested_size := size, free := false, cacheable := true, cache_hits := 0 },
         { id := -1, addr := block.addr + HEADER_SIZE + align_size size,
           start := block.addr + HEADER_SIZE + align_size size + HEADER_SIZE,
           size := block.size - align_size size - HEADER_SIZE,
           requested_size := 0, free := true, cacheable := false, cache_hits := 0 }]
        (allocator_init s).blocks) s.next_id = _
      rw [hrepl, List.append_assoc, find_block_append]
      simp only [find_block_none s.next_id pre hCpre]
      rw [List.cons_append, find_block_by_id, if_pos ⟨rfl, init_next_id s⟩]
    · show block.addr + HEADER_SIZE + align_size size ≤ HEAP_SIZE
      have h1 := hbound.2.1
      have h2 := hbq.2.2
      omega
    · intro i hi
      have hi' : i < align_size size := hi
      rw [hm]
      show memset (allocator_init s).mem (block.addr + HEADER_SIZE) (align_size size)
        PATTERN_UNINITIALIZED (block.addr + HEADER_SIZE + i) = PATTERN_UNINITIALIZED
      exact memset_inside _ _ _ _ _ (by omega) (by omega)

theorem init_of_nonempty (s : AllocState) (h : s.blocks ≠ []) : allocator_init s = s := by
  have hb : ¬(s.blocks.isEmpty = true) := by
    cases hbl : s.blocks with
    | nil => exact absurd hbl h
    | cons b rest => simp
  rw [allocator_init, if_neg hb]

/-- C9: a successful `allocator_malloc` (nonzero size, fit found) returns the
current value of the monotonic next-id counter — the id stored in the new
block, not a byte offset — and increments the counter by exactly one; the
returned id is non-negative, and the ids of simultaneously live allocated
blocks in the resulting state are pairwise distinct. -/
theorem C9_alloc_returns_id (s : AllocState) (size : Nat) (strategy : FitStrategy)
    (block : BlockHeader) (hinv : AllocInv s) (hsz : size ≠ 0)
    (hsz2 : size + MAX_ALIGN ≤ U64)
    (hff : find_fit (allocator_init s).blocks (align_size size) strategy = some block) :
    (allocator_malloc s size strategy).2 = s.next_id ∧
    (allocator_malloc s size strategy).1.next_id = s.next_id + 1 ∧
    0 ≤ (allocator_malloc s size strategy).2 ∧
    (∃ hdr, find_block_by_id (allocator_malloc s size strategy).1.blocks
        (allocator_malloc s size strategy).2 = some hdr ∧
      hdr.free = false ∧ hdr.id = (allocator_malloc s size strategy).2 ∧
      hdr.requested_size = size) ∧
    List.Pairwise liveNe (allocator_malloc s size strategy).1.blocks := by
  obtain ⟨h1, h2, hinv2, hdr, hfind, hreq, hsle, hstart, hbound, hmem⟩ :=
    malloc_success_spec s size strategy block hinv hsz hsz2 hff
  have hspec := find_block_by_id_spec _ _ _ hfind
  refine ⟨h1, h2, ?_, ⟨hdr, ?_, hspec.2.1, ?_, hreq⟩, hinv2.2.2.2.1⟩
  · rw [h1]
    exact hinv.2.2.2.2.1
  · rw [h1]
    exact hfind
  · rw [h1]
    exact hspec.2.2

/-- Witness for C9: the first allocation from the fresh state returns id 0
(= the counter), bumps the counter to 1, and leaves pairwise-distinct live
ids. -/
theorem C9_witness :
    (allocator_malloc initState 8 .First).2 = initState.next_id ∧
    (allocator_malloc initState 8 .First).1.next_id = initState.next_id + 1 ∧
    0 ≤ (allocator_malloc initState 8 .First).2 ∧
    List.Pairwise liveNe (allocator_malloc initState 8 .First).1.blocks := by
  obtain ⟨h1, h2, h3, -, h5⟩ :=
    C9_alloc_returns_id initState 8 .First initBlock Inv_initState (by decide) (by decide)
      (by decide)
  exact ⟨h1, h2, h3, h5⟩

/-- C7: after a successful `allocator_malloc`, the new block (found by the
returned id) has `requested_size = size`, every byte of its payload equals
the poison `0xCD`, and an immediately following read of any sub-range of
`[0, size)` fills the destination with `0xCD` bytes and returns false. -/
theorem C7_alloc_poison (s : AllocState) (size : Nat) (strategy : FitStrategy)
    (block : BlockHeader) (hinv : AllocInv s) (hsz : size ≠ 0)
    (hsz2 : size + MAX_ALIGN ≤ U64)
    (hff : find_fit (allocator_init s).blocks (align_size size) strategy = some block) :
    ∃ hdr, find_block_by_id (allocator_malloc s size strategy).1.blocks
        (allocator_malloc s size strategy).2 = some hdr ∧
      hdr.requested_size = size ∧
      (∀ i < hdr.size, (allocator_malloc s size strategy).1.mem (hdr.start + i) =
        PATTERN_UNINITIALIZED) ∧
      (∀ offset n dst, 0 < n → offset + n ≤ size →
        (∀ j < n, (allocator_read (allocator_malloc s size strategy).1
            (allocator_malloc s size strategy).2 offset false dst n).2.1 j =
          PATTERN_UNINITIALIZED) ∧
        (allocator_read (allocator_malloc s size strategy).1
            (allocator_malloc s size strategy).2 offset false dst n).2.2 = false) := by
  obtain ⟨h1, h2, hinv2, hdr, hfind0, hreq, hsle, hstart, hbound, hmem⟩ :=
    malloc_success_spec s size strategy block hinv hsz hsz2 hff
  have hfind : find_block_by_id (allocator_malloc s size strategy).1.blocks
      (allocator_malloc s size strategy).2 = some hdr := by
    rw [h1]
    exact hfind0
  refine ⟨hdr, hfind, hreq, hmem, ?_⟩
  intro offset n dst hn hrange
  have hne : (allocator_malloc s size strategy).1.blocks ≠ [] := by
    intro he
    rw [he] at hfind
    exact Option.noConfusion hfind
  have hini : allocator_init (allocator_malloc s size strategy).1 =
      (allocator_malloc s size strategy).1 := init_of_nonempty _ hne
  have hma : MAX_ALIGN = 16 := rfl
  have hid : 0 ≤ (allocator_malloc s size strategy).2 := by
    rw [h1]
    exact hinv.2.2.2.2.1
  have hfind' : find_block_by_id
      (allocator_init (allocator_malloc s size strategy).1).blocks
      (allocator_malloc s size strategy).2 = some hdr := by
    rw [hini]
    exact hfind
  have hrange' : offset + n ≤ hdr.requested_size := by
    rw [hreq]
    omega
  have hHU : HEAP_SIZE < U64 := by
    rw [HEAP_SIZE, U64]
    norm_num
  have hreqU : hdr.requested_size < U64 := by
    rw [hreq, hma] at *
    omega
  have hfit : hdr.start + hdr.requested_size < U64 := by
    rw [hreq]
    omega
  have hv := read_valid_range_spec (allocator_malloc s size strategy).1
    (allocator_malloc s size strategy).2 offset n dst hdr hid hfind' hn hrange' hreqU hfit
  constructor
  · intro j hj
    rw [hv.1 j hj, hini, Nat.add_assoc]
    exact hmem (offset + j) (by omega)
  · have hcd : (allocator_init (allocator_malloc s size strategy).1).mem
        (hdr.start + offset + 0) = PATTERN_UNINITIALIZED := by
      rw [hini, Nat.add_assoc]
      exact hmem (offset + 0) (by omega)
    have hnt : ¬((allocator_read (allocator_malloc s size strategy).1
        (allocator_malloc s size strategy).2 offset false dst n).2.2 = true) := by
      intro ht
      exact ((hv.2.2.mp ht) 0 hn).1 hcd
    exact Bool.eq_false_iff.mpr hnt

/-- Witness for C7: allocating 8 bytes from the fresh state and immediately
reading 4 bytes at offset 0 yields `0xCD` bytes and a false result. -/
theorem C7_witness :
    (allocator_read (allocator_malloc initState 8 .First).1
        (allocator_malloc initState 8 .First).2 0 false (fun _ => 9) 4).2.1 1 =
      PATTERN_UNINITIALIZED ∧
    (allocator_read (allocator_malloc initState 8 .First).1
        (allocator_malloc initState 8 .First).2 0 false (fun _ => 9) 4).2.2 = false := by
  obtain ⟨hdr, -, -, -, hread⟩ :=
    C7_alloc_poison initState 8 .First initBlock Inv_initState (by decide) (by decide)
      (by decide)
  have h := hread 0 4 (fun _ => 9) (by decide) (by decide)
  exact ⟨h.1 1 (by decide), h.2⟩

/-- Counterexample to C7 as originally stated: `allocate(2^64 - 1)` succeeds —
the `size_t` alignment wraps to 0, the split shrinks the payload to 0 bytes
and the memset poisons nothing — with `requested_size = 2^64 - 1`; yet an
immediately following 1-byte read at offset 0, a sub-range of
`[0, requested_size)`, returns true and stores a non-`0xCD` byte. -/
theorem C7_counterexample :
    0 ≤ (allocator_malloc initState (U64 - 1) .First).2 ∧
    Option.map (fun h => h.requested_size)
      (find_block_by_id (allocator_malloc initState (U64 - 1) .First).1.blocks
        (allocator_malloc initState (U64 - 1) .First).2) = some (U64 - 1) ∧
    (allocator_read (allocator_malloc initState (U64 - 1) .First).1
        (allocator_malloc initState (U64 - 1) .First).2 0 false (fun _ => 9) 1).2.2 = true ∧
    (allocator_read (allocator_malloc initState (U64 - 1) .First).1
        (allocator_malloc initState (U64 - 1) .First).2 0 false (fun _ => 9) 1).2.1 0 ≠
      PATTERN_UNINITIALIZED := by
  decide
